import Mathlib

/-!
Verification of the Aritzia e-commerce price-analysis pipeline.

The definitions below are a shallow embedding of the cleaning, enrichment,
assembly and aggregation code of the repository (`clean_data.py`,
`run_analysis.py`).  Python dictionaries are modelled by a record type whose
fields distinguish an absent key, a key bound to `None`, and a key bound to a
value; Python strings are modelled as lists of code points; Python floats are
modelled as rationals, with `round(x, n)` modelled as exact round-half-even at
`n` decimal places; Python exceptions (KeyError, TypeError,
ZeroDivisionError) are modelled with `Except`.
-/

namespace Aritzia

set_option maxRecDepth 100000

deriving instance DecidableEq for Except

/-- A field of a Python-dict-shaped record: the key may be absent, bound to
`None`, or bound to a value. -/
inductive JField (α : Type) where
  | absent
  | null
  | val (a : α)
deriving DecidableEq

/-- Python strings as lists of Unicode code points. -/
abbrev Str := List Nat

/-- Python `str.isspace` / `str.split()` whitespace test (ASCII part). -/
def isSpaceC (c : Nat) : Bool :=
  decide (c = 32 ∨ c = 9 ∨ c = 10 ∨ c = 13 ∨ c = 11 ∨ c = 12)

/-- ASCII upper-case letter test. -/
def isUpperC (c : Nat) : Bool := decide (65 ≤ c ∧ c ≤ 90)

/-- ASCII lower-case letter test. -/
def isLowerC (c : Nat) : Bool := decide (97 ≤ c ∧ c ≤ 122)

/-- A "cased" character in the sense used by Python `str.title` (ASCII part). -/
def isCasedC (c : Nat) : Bool := isUpperC c || isLowerC c

/-- Code-point upper-casing (ASCII part). -/
def toUpperC (c : Nat) : Nat := if isLowerC c then c - 32 else c

/-- Code-point lower-casing (ASCII part). -/
def toLowerC (c : Nat) : Nat := if isUpperC c then c + 32 else c

/-- Python `str.lower`. -/
def lowerS (s : Str) : Str := s.map toLowerC

/-- Python `str.strip`: drop leading and trailing whitespace. -/
def stripS (s : Str) : Str :=
  ((s.dropWhile isSpaceC).reverse.dropWhile isSpaceC).reverse

/-- Python `str.title` (ASCII part): the Boolean argument records whether the
previous character was cased. -/
def titleS : Bool → Str → Str
  | _, [] => []
  | prev, c :: cs =>
    if isCasedC c then
      (if prev then toLowerC c else toUpperC c) :: titleS true cs
    else
      c :: titleS false cs

/-- The loop of Python `str.split()` with no separator: `cur` carries the
current word reversed. -/
def wordsAux (cur : Str) : Str → List Str
  | [] => if cur = [] then [] else [cur.reverse]
  | c :: cs =>
    if isSpaceC c then
      if cur = [] then wordsAux [] cs else cur.reverse :: wordsAux [] cs
    else wordsAux (c :: cur) cs

/-- Python `str.split()` with no separator: maximal runs of non-whitespace. -/
def wordsS (s : Str) : List Str := wordsAux [] s

/-- Python `" ".join`. -/
def joinSp : List Str → Str
  | [] => []
  | [w] => w
  | w :: ws => w ++ 32 :: joinSp ws

/-- Round-half-even on rationals, to an integer (the rounding mode of
Python's built-in `round`). -/
def rhe (q : ℚ) : ℤ :=
  if q - Rat.floor q < 1/2 then Rat.floor q
  else if 1/2 < q - Rat.floor q then Rat.floor q + 1
  else if 2 ∣ Rat.floor q then Rat.floor q else Rat.floor q + 1

/-- Python `round(q, 2)` modelled exactly on rationals. -/
def round2 (q : ℚ) : ℚ := (rhe (q * 100) : ℚ) / 100

/-- Python `round(q, 1)` modelled exactly on rationals. -/
def round1 (q : ℚ) : ℚ := (rhe (q * 10) : ℚ) / 10

/-- A product record, mirroring the Python dict shape used by the pipeline;
raw records leave the derived fields absent, the cleaner fills them in. -/
@[ext]
structure Rec where
  sku : JField Str := .absent
  name : JField Str := .absent
  category : JField Str := .absent
  original_price : JField ℚ := .absent
  sale_price : JField ℚ := .absent
  discount_percentage : JField ℚ := .absent
  colors : JField (List Str) := .absent
  in_stock : JField Bool := .absent
  price_tier : JField String := .absent
  discount_tier : JField String := .absent
  num_colors : JField Nat := .absent
  savings_amount : JField ℚ := .absent
deriving DecidableEq

/-- The Python exceptions the cleaning code can raise. -/
inductive PyError where
  | keyError
  | typeError
  | zeroDivisionError
deriving DecidableEq

/-- The code points of `"Unknown Product"`. -/
def unknownProduct : Str :=
  [85, 110, 107, 110, 111, 119, 110, 32, 80, 114, 111, 100, 117, 99, 116]

/-- The code points of `"uncategorized"`. -/
def uncategorized : Str :=
  [117, 110, 99, 97, 116, 101, 103, 111, 114, 105, 122, 101, 100]

/-- Collapse whitespace and title-case, i.e. the transformation
`" ".join(name.split())` followed by `.title()` from `clean_product_name`. -/
def cleanNameStr (s : Str) : Str := titleS false (joinSp (wordsS s))

/-- `clean_product_name` applied to `product.get("name", "")`: an absent key
yields `""` and a `None` value is falsy, both giving `"Unknown Product"`. -/
def cleanProductName (f : JField Str) : Str :=
  match f with
  | .val s => if s = [] then unknownProduct else cleanNameStr s
  | _ => unknownProduct

/-- `standardize_category` applied to `product.get("category", "")`. -/
def standardizeCategory (f : JField Str) : Str :=
  match f with
  | .val s => if s = [] then uncategorized else stripS (lowerS s)
  | _ => uncategorized

/-- `validate_and_clean_prices`: returns the updated record together with the
`is_valid` flag; raises KeyError on a missing `sale_price` key and
ZeroDivisionError when the rounded original price is zero and the division at
the discount recomputation is reached. -/
def validateAndCleanPrices (p : Rec) : Except PyError (Rec × Bool) :=
  match p.original_price with
  | .absent => .ok ({p with original_price := .null}, false)
  | .null => .ok ({p with original_price := .null}, false)
  | .val o =>
    if o ≤ 0 then .ok ({p with original_price := .null}, false)
    else
      let o2 := round2 o
      let p1 : Rec :=
        match p.sale_price with
        | .val s =>
          let s2 := round2 s
          if o2 < s2 then
            {p with original_price := .val o2, sale_price := .val o2,
                    discount_percentage := .val 0}
          else
            {p with original_price := .val o2, sale_price := .val s2}
        | _ => {p with original_price := .val o2}
      match p1.sale_price with
      | .absent => .error .keyError
      | .null => .ok ({p1 with discount_percentage := .val 0}, true)
      | .val s2 =>
        if s2 ≠ 0 ∧ s2 < o2 then
          if o2 = 0 then .error .zeroDivisionError
          else
            .ok ({p1 with
                  discount_percentage := .val (round1 ((1 - s2 / o2) * 100))}, true)
        else .ok ({p1 with discount_percentage := .val 0}, true)

/-- `add_derived_features`: price tier, discount tier, colour count and
savings amount; raises TypeError when a `None` value meets an ordered
comparison or `len`. -/
def addDerivedFeatures (p : Rec) : Except PyError Rec := do
  let ptier : String ←
    match p.original_price with
    | .null => .error PyError.typeError
    | .absent => .ok "unknown"
    | .val o =>
      .ok (if o ≤ 0 then "unknown"
           else if o < 50 then "budget"
           else if o < 100 then "mid-range"
           else if o < 200 then "premium"
           else "luxury")
  let dtier : String ←
    match p.discount_percentage with
    | .absent => .ok "none"
    | .null => .error PyError.typeError
    | .val d =>
      .ok (if d = 0 then "none"
           else if d ≤ 20 then "small"
           else if d ≤ 40 then "medium"
           else "large")
  let ncolors : Nat ←
    match p.colors with
    | .absent => .ok 0
    | .null => .error PyError.typeError
    | .val l => .ok l.length
  let savings : ℚ :=
    match p.original_price, p.sale_price with
    | .val o, .val s => if o ≠ 0 ∧ s ≠ 0 then round2 (o - s) else 0
    | _, _ => 0
  .ok {p with price_tier := .val ptier, discount_tier := .val dtier,
              num_colors := .val ncolors, savings_amount := .val savings}

/-- The per-record body of the loop in `clean_daily_data`: name cleaning,
category standardization, price validation, then feature enrichment; `none`
means the record was counted invalid and skipped. -/
def processRecord (p : Rec) : Except PyError (Option Rec) := do
  let p1 : Rec :=
    {p with name := .val (cleanProductName p.name),
            category := .val (standardizeCategory p.category)}
  let (p2, valid) ← validateAndCleanPrices p1
  if valid then
    let p3 ← addDerivedFeatures p2
    pure (some p3)
  else
    pure none

/-- The loop of `remove_duplicates`, carrying the `seen_skus` set. -/
def removeDupAux (seen : List (JField Str)) : List Rec → Except PyError (List Rec)
  | [] => .ok []
  | p :: ps =>
    if p.sku = .absent then .error .keyError
    else if p.sku ∈ seen then removeDupAux seen ps
    else do
      let rest ← removeDupAux (p.sku :: seen) ps
      pure (p :: rest)

/-- `remove_duplicates`: first occurrence of each sku wins. -/
def removeDuplicates (ps : List Rec) : Except PyError (List Rec) :=
  removeDupAux [] ps

/-- The per-day loop of `clean_daily_data` after deduplication: returns the
cleaned list together with the invalid-record count. -/
def cleanAux : List Rec → Except PyError (List Rec × Nat)
  | [] => .ok ([], 0)
  | p :: ps => do
    let r ← processRecord p
    let (rest, k) ← cleanAux ps
    match r with
    | none => pure (rest, k + 1)
    | some c => pure (c :: rest, k)

/-- `clean_daily_data` (the date argument is only used for progress printing
and is omitted): deduplicate, then clean each record, dropping invalid
ones and counting them. -/
def cleanDailyData (ps : List Rec) : Except PyError (List Rec × Nat) := do
  let qs ← removeDuplicates ps
  cleanAux qs

/-- A row of the assembled time-series table (`create_time_series_data`);
`none` stands for a missing value (Python `None`, pandas `NaN`). -/
structure Row where
  date : Nat
  sku : Option Str
  name : Option Str
  category : Option Str
  original_price : Option ℚ
  sale_price : Option ℚ
  discount_percentage : Option ℚ
  price_tier : Option String
  discount_tier : Option String
  in_stock : Option Bool
  savings_amount : Option ℚ
deriving DecidableEq

/-- A mandatory dict access `product["k"]`: raises KeyError when the key is
absent, yields the (possibly `None`) value otherwise. -/
def reqField {α : Type} (f : JField α) : Except PyError (Option α) :=
  match f with
  | .absent => .error .keyError
  | .null => .ok none
  | .val a => .ok (some a)

/-- A defaulted dict access `product.get("k", dflt)`. -/
def getField {α : Type} (f : JField α) (dflt : α) : Option α :=
  match f with
  | .absent => some dflt
  | .null => none
  | .val a => some a

/-- One row of `create_time_series_data` built from a cleaned record. -/
def rowOfRec (d : Nat) (p : Rec) : Except PyError Row := do
  let sk ← reqField p.sku
  let nm ← reqField p.name
  let cat ← reqField p.category
  let op ← reqField p.original_price
  let sp ← reqField p.sale_price
  let dp ← reqField p.discount_percentage
  pure { date := d, sku := sk, name := nm, category := cat,
         original_price := op, sale_price := sp, discount_percentage := dp,
         price_tier := getField p.price_tier "unknown",
         discount_tier := getField p.discount_tier "none",
         in_stock := getField p.in_stock true,
         savings_amount := getField p.savings_amount 0 }

/-- Sequential mapping of a fallible function over a list (the Python
`for`-loop with `records.append`). -/
def mapE {α β : Type} (f : α → Except PyError β) : List α → Except PyError (List β)
  | [] => .ok []
  | a :: as => do
    let b ← f a
    let bs ← mapE f as
    pure (b :: bs)

/-- `create_time_series_data`: iterate the daily collections in ascending
date order and flatten into one table. -/
def createTimeSeriesData (days : List (Nat × List Rec)) :
    Except PyError (List Row) := do
  let sorted := List.insertionSort (fun a b => a.1 ≤ b.1) days
  let rowss ← mapE (fun dr => mapE (rowOfRec dr.1) dr.2) sorted
  pure rowss.flatten

/-- Mean of a list of rationals, `none` on the empty list (pandas returns
`NaN` for the mean of an empty series). -/
def meanOpt (xs : List ℚ) : Option ℚ :=
  if xs = [] then none else some (xs.sum / xs.length)

/-- The row filter `df["discount_percentage"] > 0` (NaN compares false). -/
def discFilter (r : Row) : Bool :=
  match r.discount_percentage with
  | some q => decide (0 < q)
  | none => false

/-- The `mean_discount` entry of `create_summary_statistics`:
`round(df[df["discount_percentage"] > 0]["discount_percentage"].mean(), 2)`,
`none` when no row has a positive discount. -/
def meanDiscountStat (tbl : List Row) : Option ℚ :=
  (meanOpt ((tbl.filter discFilter).filterMap (fun r => r.discount_percentage))).map
    round2

/-- The rows of the table belonging to one category, in table order (the
series a pandas `groupby("category")` hands to `apply`). -/
def catRows (tbl : List Row) (cat : Str) : List Row :=
  tbl.filter (fun r => r.category = some cat)

/-- `Series.diff().abs()` on a sequence of possibly-missing values: position
`i ≥ 1` holds `|x_i - x_(i-1)|`, `none` whenever either neighbour is missing;
the leading `NaN` of `diff` is dropped (it is skipped by `mean` anyway). -/
def absDiffsO : List (Option ℚ) → List (Option ℚ)
  | a :: b :: t =>
    (match a, b with
     | some x, some y => some |y - x|
     | _, _ => none) :: absDiffsO (b :: t)
  | _ => []

/-- Successive absolute differences of a list of rationals. -/
def absDiffs : List ℚ → List ℚ
  | a :: b :: t => |b - a| :: absDiffs (b :: t)
  | _ => []

/-- `diff().abs().mean()` with pandas NaN-skipping semantics. -/
def diffAbsMean (xs : List (Option ℚ)) : Option ℚ :=
  meanOpt ((absDiffsO xs).filterMap id)

/-- The discount volatility of `analyze_category_discounts`:
`df.groupby("category")["discount_percentage"].apply(lambda x:
x.diff().abs().mean()).round(2)` — successive differences of the category's
rows in table order. -/
def discountVolatility (tbl : List Row) (cat : Str) : Option ℚ :=
  (diffAbsMean ((catRows tbl cat).map (fun r => r.discount_percentage))).map round2

/-- The dates at which a category is observed, in table order. -/
def catDates (tbl : List Row) (cat : Str) : List Nat :=
  ((catRows tbl cat).map (fun r => r.date)).dedup

/-- The category's average discount on one date. -/
def dateAvgDiscount (tbl : List Row) (cat : Str) (d : Nat) : ℚ :=
  let xs := ((catRows tbl cat).filter (fun r => r.date = d)).filterMap
    (fun r => r.discount_percentage)
  xs.sum / xs.length

/-- Discount volatility as the specification words it: the mean absolute
day-over-day difference of the category's time-ordered daily average
discounts. -/
def specVolatility (tbl : List Row) (cat : Str) : Option ℚ :=
  (meanOpt (absDiffs ((catDates tbl cat).map (dateAvgDiscount tbl cat)))).map round2

/-- `daily_stats["date"].min()` on a list of dates. -/
def minDate (ds : List Nat) : Nat :=
  match ds with
  | [] => 0
  | d :: t => t.foldl Nat.min d

/-- Ordinary-least-squares slope of `y` against `x` (the closed form used by
`scipy.stats.linregress`). -/
def linSlope (pts : List (ℚ × ℚ)) : ℚ :=
  let n : ℚ := pts.length
  let xm := (pts.map (fun p => p.1)).sum / n
  let ym := (pts.map (fun p => p.2)).sum / n
  let sxy := (pts.map (fun p => (p.1 - xm) * (p.2 - ym))).sum
  let sxx := (pts.map (fun p => (p.1 - xm) ^ 2)).sum
  sxy / sxx

/-- Squared correlation coefficient of the same regression (`r_value ** 2`). -/
def linCorrSq (pts : List (ℚ × ℚ)) : ℚ :=
  let n : ℚ := pts.length
  let xm := (pts.map (fun p => p.1)).sum / n
  let ym := (pts.map (fun p => p.2)).sum / n
  let sxy := (pts.map (fun p => (p.1 - xm) * (p.2 - ym))).sum
  let sxx := (pts.map (fun p => (p.1 - xm) ^ 2)).sum
  let syy := (pts.map (fun p => (p.2 - ym) ^ 2)).sum
  sxy ^ 2 / (sxx * syy)

/-- The trend regression of `analyze_price_trends`: mean daily discount
against the 0-based day offset from the first date; returns the slope and the
squared correlation coefficient. -/
def discountTrend (daily : List (Nat × ℚ)) : ℚ × ℚ :=
  let m := minDate (daily.map (fun p => p.1))
  let pts := daily.map (fun p => (((p.1 - m : Nat) : ℚ), p.2))
  (linSlope pts, linCorrSq pts)

/-! ### Rounding lemmas -/

theorem ratFloor_eq_intFloor (q : ℚ) : Rat.floor q = ⌊q⌋ := rfl

theorem rhe_intCast (k : ℤ) : rhe (k : ℚ) = k := by
  unfold rhe
  rw [ratFloor_eq_intFloor, Int.floor_intCast]
  norm_num

theorem rhe_ge_floor (q : ℚ) : ⌊q⌋ ≤ rhe q := by
  unfold rhe
  rw [ratFloor_eq_intFloor]
  split
  · exact le_refl _
  · split
    · omega
    · split <;> omega

theorem rhe_le_floor_add_one (q : ℚ) : rhe q ≤ ⌊q⌋ + 1 := by
  unfold rhe
  rw [ratFloor_eq_intFloor]
  split
  · omega
  · split
    · omega
    · split <;> omega

theorem rhe_mono {a b : ℚ} (hab : a ≤ b) : rhe a ≤ rhe b := by
  rcases lt_or_eq_of_le (Int.floor_le_floor hab) with hf | hf
  · calc rhe a ≤ ⌊a⌋ + 1 := rhe_le_floor_add_one a
    _ ≤ ⌊b⌋ := by omega
    _ ≤ rhe b := rhe_ge_floor b
  · have hge := rhe_ge_floor b
    unfold rhe
    rw [ratFloor_eq_intFloor, ratFloor_eq_intFloor, hf]
    by_cases h1 : a - ((⌊b⌋ : ℤ) : ℚ) < 1 / 2
    · rw [if_pos h1]
      split
      · omega
      · split
        · omega
        · split <;> omega
    · rw [if_neg h1]
      push_neg at h1
      have hb1 : ¬ b - ((⌊b⌋ : ℤ) : ℚ) < 1 / 2 := by push_neg; linarith
      by_cases h2 : 1 / 2 < a - ((⌊b⌋ : ℤ) : ℚ)
      · have hb2 : 1 / 2 < b - ((⌊b⌋ : ℤ) : ℚ) := by linarith
        rw [if_pos h2, if_neg hb1, if_pos hb2]
      · rw [if_neg h2]
        by_cases h3 : 2 ∣ ⌊b⌋
        · rw [if_pos h3]
          split
          · omega
          · split
            · omega
            · omega
        · rw [if_neg h3, if_neg hb1]
          by_cases hb2 : 1 / 2 < b - ((⌊b⌋ : ℤ) : ℚ)
          · rw [if_pos hb2]
          · rw [if_neg hb2]

theorem rhe_half_le {q : ℚ} (hq : 0 < q) (h : rhe q = 0) : q ≤ 1 / 2 := by
  by_contra hgt
  push_neg at hgt
  have hf0 : (0 : ℤ) ≤ ⌊q⌋ := Int.floor_nonneg.mpr hq.le
  have hfle : ⌊q⌋ ≤ 0 := h ▸ rhe_ge_floor q
  have hfz : ⌊q⌋ = 0 := le_antisymm hfle hf0
  unfold rhe at h
  rw [ratFloor_eq_intFloor, hfz] at h
  have hn : ¬ q - ((0 : ℤ) : ℚ) < 1 / 2 := by push_cast; push_neg; linarith
  rw [if_neg hn] at h
  by_cases h2 : 1 / 2 < q - ((0 : ℤ) : ℚ)
  · rw [if_pos h2] at h
    omega
  · push_cast at hn h2
    push_neg at hn h2
    linarith

theorem round2_idem (q : ℚ) : round2 (round2 q) = round2 q := by
  unfold round2
  rw [div_mul_cancel₀ _ (by norm_num : (100 : ℚ) ≠ 0), rhe_intCast]

theorem round1_idem (q : ℚ) : round1 (round1 q) = round1 q := by
  unfold round1
  rw [div_mul_cancel₀ _ (by norm_num : (10 : ℚ) ≠ 0), rhe_intCast]

theorem round2_mono {a b : ℚ} (hab : a ≤ b) : round2 a ≤ round2 b := by
  unfold round2
  have h : ((rhe (a * 100) : ℤ) : ℚ) ≤ ((rhe (b * 100) : ℤ) : ℚ) := by
    exact_mod_cast rhe_mono (show a * 100 ≤ b * 100 by linarith)
  linarith

theorem round2_zero : round2 0 = 0 := by
  unfold round2
  rw [zero_mul]
  have := rhe_intCast 0
  push_cast at this
  rw [this]
  norm_num

theorem round1_zero : round1 0 = 0 := by
  unfold round1
  rw [zero_mul]
  have := rhe_intCast 0
  push_cast at this
  rw [this]
  norm_num

theorem round2_nonneg {q : ℚ} (h : 0 ≤ q) : 0 ≤ round2 q := by
  have := round2_mono h
  rw [round2_zero] at this
  exact this

theorem round1_pos_bound {q : ℚ} (hq : 0 < q) (h : round1 q = 0) : q ≤ 1 / 20 := by
  unfold round1 at h
  have h10 : rhe (q * 10) = 0 := by
    field_simp at h
    exact_mod_cast h
  have := rhe_half_le (by linarith) h10
  linarith

/-! ### Inversion lemmas for the enrichment step -/

theorem addDerived_ok_fields {p r : Rec} (h : addDerivedFeatures p = .ok r) :
    (∀ o : ℚ, p.original_price = .val o →
      r.price_tier = .val (if o ≤ 0 then "unknown" else if o < 50 then "budget"
        else if o < 100 then "mid-range" else if o < 200 then "premium"
        else "luxury")) ∧
    (∀ d : ℚ, p.discount_percentage = .val d →
      r.discount_tier = .val (if d = 0 then "none" else if d ≤ 20 then "small"
        else if d ≤ 40 then "medium" else "large")) := by
  unfold addDerivedFeatures at h
  cases hop : p.original_price <;> rw [hop] at h <;>
    cases hd : p.discount_percentage <;> rw [hd] at h <;>
    cases hc : p.colors <;> rw [hc] at h <;>
    simp only [Except.bind, bind, pure] at h <;>
    first
    | exact Except.noConfusion h
    | (injection h with h
       subst h
       constructor
       · intro o ho
         first
         | exact JField.noConfusion ho
         | (injection ho with ho
            subst ho
            rfl)
       · intro d hdv
         first
         | exact JField.noConfusion hdv
         | (injection hdv with hdv
            subst hdv
            rfl))

/-- C7: under enrichment the tier boundaries are exact cut points: an
original price of exactly 50 yields price tier "mid-range", 100 yields
"premium", 200 yields "luxury"; a discount of exactly 20 yields discount
tier "small", 40 yields "medium", and any discount strictly above 40 yields
"large". -/
theorem c7_tier_boundaries :
    ∀ p r : Rec, addDerivedFeatures p = .ok r →
      (p.original_price = .val 50 → r.price_tier = .val "mid-range") ∧
      (p.original_price = .val 100 → r.price_tier = .val "premium") ∧
      (p.original_price = .val 200 → r.price_tier = .val "luxury") ∧
      (p.discount_percentage = .val 20 → r.discount_tier = .val "small") ∧
      (p.discount_percentage = .val 40 → r.discount_tier = .val "medium") ∧
      (∀ d : ℚ, p.discount_percentage = .val d → 40 < d →
        r.discount_tier = .val "large") := by
  intro p r h
  obtain ⟨hpt, hdt⟩ := addDerived_ok_fields h
  refine ⟨?_, ?_, ?_, ?_, ?_, ?_⟩
  · intro hv
    rw [hpt 50 hv]
    norm_num
  · intro hv
    rw [hpt 100 hv]
    norm_num
  · intro hv
    rw [hpt 200 hv]
    norm_num
  · intro hv
    rw [hdt 20 hv]
    norm_num
  · intro hv
    rw [hdt 40 hv]
    norm_num
  · intro d hv hd
    rw [hdt d hv]
    rw [if_neg (by linarith), if_neg (by linarith), if_neg (by linarith)]

/-- The concrete record used to witness the tier-boundary theorem. -/
def c7rec : Rec := {original_price := .val 50, discount_percentage := .val 40}

/-- The enrichment output on `c7rec`. -/
def c7out : Rec :=
  {original_price := .val 50, discount_percentage := .val 40,
   price_tier := .val "mid-range", discount_tier := .val "medium",
   num_colors := .val 0, savings_amount := .val 0}

/-- Witness for C7 at a concrete record priced exactly 50 with discount
exactly 40. -/
theorem c7_witness :
    addDerivedFeatures c7rec = .ok c7out ∧
    c7out.price_tier = .val "mid-range" ∧
    c7out.discount_tier = .val "medium" := by
  have h : addDerivedFeatures c7rec = .ok c7out := by with_unfolding_all decide
  have hc := c7_tier_boundaries c7rec c7out h
  exact ⟨h, hc.1 rfl, hc.2.2.2.2.1 rfl⟩

/-! ### C4: mean discount restricted to discounted rows -/

theorem meanOpt_eq_none {xs : List ℚ} : meanOpt xs = none ↔ xs = [] := by
  unfold meanOpt
  split <;> simp_all

/-- C4: the summary mean discount is computed only over rows with a positive
discount — prepending a non-discounted row leaves it unchanged — and it is
`none` (pandas NaN), never 0, exactly when no row has a positive discount. -/
theorem c4_mean_discount :
    (∀ tbl : List Row, meanDiscountStat tbl = none ↔
      ∀ r ∈ tbl, ∀ q : ℚ, r.discount_percentage = some q → q ≤ 0) ∧
    (∀ (tbl : List Row) (r : Row),
      (∀ q : ℚ, r.discount_percentage = some q → q ≤ 0) →
      meanDiscountStat (r :: tbl) = meanDiscountStat tbl) := by
  constructor
  · intro tbl
    unfold meanDiscountStat
    rw [Option.map_eq_none', meanOpt_eq_none, List.filterMap_eq_nil_iff]
    constructor
    · intro h r hr q hq
      by_contra hq0
      push_neg at hq0
      have hf : discFilter r = true := by
        unfold discFilter
        rw [hq]
        simpa using hq0
      have := h r (List.mem_filter.mpr ⟨hr, hf⟩)
      rw [hq] at this
      cases this
    · intro h r hr
      rcases List.mem_filter.mp hr with ⟨hmem, hfil⟩
      unfold discFilter at hfil
      cases hq : r.discount_percentage with
      | none => rfl
      | some q =>
        rw [hq] at hfil
        have := h r hmem q hq
        simp at hfil
        linarith
  · intro tbl r hr
    unfold meanDiscountStat
    have hf : discFilter r = false := by
      unfold discFilter
      cases hq : r.discount_percentage with
      | none => rfl
      | some q =>
        have := hr q hq
        simp
        linarith
    rw [List.filter_cons_of_neg (by simp [hf])]

/-- A concrete row with a zero discount. -/
def c4row : Row :=
  { date := 0, sku := some [115], name := some [110], category := some [99],
    original_price := some 100, sale_price := some 100,
    discount_percentage := some 0, price_tier := some "premium",
    discount_tier := some "none", in_stock := some true,
    savings_amount := some 0 }

/-- Witness for C4: on a table whose single row has zero discount, the mean
discount equals that of the empty table and is `none`, not 0. -/
theorem c4_witness :
    meanDiscountStat [c4row] = meanDiscountStat [] ∧
    meanDiscountStat [c4row] = none := by
  have hz : ∀ q : ℚ, c4row.discount_percentage = some q → q ≤ 0 := by
    intro q hq
    simp [c4row] at hq
    linarith [hq]
  refine ⟨c4_mean_discount.2 [] c4row hz, ?_⟩
  exact (c4_mean_discount.1 [c4row]).mpr (by
    intro r hr q hq
    simp at hr
    rw [hr] at hq
    simp [c4row] at hq
    linarith)

/-! ### C9: the trend regression on a linearly decreasing series -/

/-- C9: on a daily mean-discount series that decreases by exactly one
percentage point per day over five consecutive days, the OLS trend slope is
exactly −1 and the squared correlation coefficient is exactly 1. -/
theorem c9_trend_regression :
    ∀ (d0 : Nat) (v : ℚ),
      discountTrend [(d0, v), (d0 + 1, v - 1), (d0 + 2, v - 2),
        (d0 + 3, v - 3), (d0 + 4, v - 4)] = (-1, 1) := by
  intro d0 v
  have hm : minDate ([(d0, v), (d0 + 1, v - 1), (d0 + 2, v - 2),
      (d0 + 3, v - 3), (d0 + 4, v - 4)].map (fun p => p.1)) = d0 := by
    simp [minDate, List.foldl]
  simp only [discountTrend]
  rw [hm]
  have e0 : d0 - d0 = 0 := Nat.sub_self d0
  have e1 : d0 + 1 - d0 = 1 := by omega
  have e2 : d0 + 2 - d0 = 2 := by omega
  have e3 : d0 + 3 - d0 = 3 := by omega
  have e4 : d0 + 4 - d0 = 4 := by omega
  simp only [List.map_cons, List.map_nil, e0, e1, e2, e3, e4]
  unfold linSlope linCorrSq
  simp only [List.map_cons, List.map_nil, List.sum_cons, List.sum_nil,
    List.length_cons, List.length_nil]
  push_cast
  norm_num
  have hsum : (v + (v - 1 + (v - 2 + (v - 3 + (v - 4))))) / 5 = v - 2 := by ring
  rw [hsum]
  constructor <;> ring

/-! ### C6: deduplication keeps exactly the first occurrence of each sku -/

theorem removeDupAux_sublist {seen : List (JField Str)} {ps out : List Rec}
    (h : removeDupAux seen ps = .ok out) : out.Sublist ps := by
  induction ps generalizing seen out with
  | nil =>
    unfold removeDupAux at h
    injection h with h
    subst h
    exact List.Sublist.refl []
  | cons p ps ih =>
    unfold removeDupAux at h
    split at h
    · exact Except.noConfusion h
    · split at h
      · exact List.Sublist.cons p (ih h)
      · cases hrest : removeDupAux (p.sku :: seen) ps with
        | error e =>
          rw [hrest] at h
          exact Except.noConfusion h
        | ok rest =>
          rw [hrest] at h
          simp only [Except.bind, bind, pure] at h
          injection h with h
          subst h
          exact List.Sublist.cons₂ p (ih hrest)

theorem removeDupAux_skus {seen : List (JField Str)} {ps out : List Rec}
    (h : removeDupAux seen ps = .ok out) :
    (∀ q ∈ out, q.sku ∉ seen) ∧ (out.map (fun r => r.sku)).Nodup := by
  induction ps generalizing seen out with
  | nil =>
    unfold removeDupAux at h
    injection h with h
    subst h
    simp
  | cons p ps ih =>
    unfold removeDupAux at h
    split at h
    · exact Except.noConfusion h
    · split at h
      · exact ih h
      · cases hrest : removeDupAux (p.sku :: seen) ps with
        | error e =>
          rw [hrest] at h
          exact Except.noConfusion h
        | ok rest =>
          rw [hrest] at h
          simp only [Except.bind, bind, pure] at h
          injection h with h
          subst h
          obtain ⟨hnot, hnd⟩ := ih hrest
          constructor
          · intro q hq
            rcases List.mem_cons.mp hq with hq | hq
            · subst hq
              assumption
            · intro hmem
              exact hnot q hq (List.mem_cons_of_mem _ hmem)
          · rw [List.map_cons, List.nodup_cons]
            refine ⟨?_, hnd⟩
            intro hmem
            rcases List.mem_map.mp hmem with ⟨q, hq, hsku⟩
            exact hnot q hq (by rw [hsku]; exact List.mem_cons_self _ _)

theorem removeDupAux_covers {seen : List (JField Str)} {ps out : List Rec}
    (h : removeDupAux seen ps = .ok out) :
    ∀ p ∈ ps, p.sku ∈ seen ∨ ∃ q ∈ out, q.sku = p.sku := by
  induction ps generalizing seen out with
  | nil =>
    intro p hp
    cases hp
  | cons p ps ih =>
    unfold removeDupAux at h
    split at h
    · exact Except.noConfusion h
    · split at h
      · intro x hx
        rcases List.mem_cons.mp hx with hx | hx
        · subst hx
          left
          assumption
        · exact ih h x hx
      · cases hrest : removeDupAux (p.sku :: seen) ps with
        | error e =>
          rw [hrest] at h
          exact Except.noConfusion h
        | ok rest =>
          rw [hrest] at h
          simp only [Except.bind, bind, pure] at h
          injection h with h
          subst h
          intro x hx
          rcases List.mem_cons.mp hx with hx | hx
          · subst hx
            right
            exact ⟨x, List.mem_cons_self _ _, rfl⟩
          · rcases ih hrest x hx with hseen | ⟨q, hq, hsku⟩
            · rcases List.mem_cons.mp hseen with hs | hs
              · right
                exact ⟨p, List.mem_cons_self _ _, hs.symm⟩
              · left
                exact hs
            · right
              exact ⟨q, List.mem_cons_of_mem _ hq, hsku⟩

theorem removeDupAux_first {seen : List (JField Str)} {ps out : List Rec}
    (h : removeDupAux seen ps = .ok out) :
    ∀ q ∈ out, ps.find? (fun p => p.sku == q.sku) = some q := by
  induction ps generalizing seen out with
  | nil =>
    unfold removeDupAux at h
    injection h with h
    subst h
    intro q hq
    cases hq
  | cons p ps ih =>
    unfold removeDupAux at h
    split at h
    · exact Except.noConfusion h
    · rename_i hne
      split at h
      · rename_i hseen
        intro q hq
        have hnot := (removeDupAux_skus h).1 q hq
        have hqs : (p.sku == q.sku) = false := by
          rw [beq_eq_false_iff_ne]
          intro hbeq
          exact hnot (hbeq ▸ hseen)
        simp only [List.find?, hqs]
        exact ih h q hq
      · cases hrest : removeDupAux (p.sku :: seen) ps with
        | error e =>
          rw [hrest] at h
          exact Except.noConfusion h
        | ok rest =>
          rw [hrest] at h
          simp only [Except.bind, bind, pure] at h
          injection h with h
          subst h
          intro q hq
          rcases List.mem_cons.mp hq with hq | hq
          · subst hq
            simp only [List.find?, beq_self_eq_true]
          · have hnot := (removeDupAux_skus hrest).1 q hq
            have hqs : (p.sku == q.sku) = false := by
              rw [beq_eq_false_iff_ne]
              intro hbeq
              exact hnot (hbeq ▸ List.mem_cons_self _ _)
            simp only [List.find?, hqs]
            exact ih hrest q hq

theorem removeDupAux_length {seen : List (JField Str)} {ps out : List Rec}
    (h : removeDupAux seen ps = .ok out) :
    out.length = ((ps.map (fun r => r.sku)).toFinset \ seen.toFinset).card := by
  induction ps generalizing seen out with
  | nil =>
    unfold removeDupAux at h
    injection h with h
    subst h
    simp
  | cons p ps ih =>
    unfold removeDupAux at h
    split at h
    · exact Except.noConfusion h
    · split at h
      · rename_i hseen
        rw [ih h, List.map_cons, List.toFinset_cons]
        congr 1
        rw [Finset.insert_sdiff_of_mem _ (List.mem_toFinset.mpr hseen)]
      · rename_i hseen
        cases hrest : removeDupAux (p.sku :: seen) ps with
        | error e =>
          rw [hrest] at h
          exact Except.noConfusion h
        | ok rest =>
          rw [hrest] at h
          simp only [Except.bind, bind, pure] at h
          injection h with h
          subst h
          rw [List.length_cons, ih hrest, List.map_cons, List.toFinset_cons,
            List.toFinset_cons]
          have hmem : p.sku ∉ seen.toFinset := fun hc => hseen (List.mem_toFinset.mp hc)
          rw [Finset.sdiff_insert, Finset.insert_sdiff_of_not_mem _ hmem]
          by_cases hin : p.sku ∈ (ps.map (fun r => r.sku)).toFinset \ seen.toFinset
          · rw [Finset.card_erase_of_mem hin, Finset.card_insert_of_mem hin]
            have hpos := Finset.card_pos.mpr ⟨p.sku, hin⟩
            omega
          · rw [Finset.erase_eq_of_not_mem hin, Finset.card_insert_of_not_mem hin]

/-- C6: deduplication keeps, for each sku, exactly the first record in input
order: the output is a sublist of the input (order preserved), its skus are
pairwise distinct, its length is the number of distinct input skus (input
length minus duplicates beyond first occurrence), every input sku is
represented, and every kept record is the first record of the input carrying
its sku. -/
theorem c6_dedup_first_occurrence :
    ∀ ps out : List Rec, removeDuplicates ps = .ok out →
      out.Sublist ps ∧
      (out.map (fun r => r.sku)).Nodup ∧
      out.length = (ps.map (fun r => r.sku)).toFinset.card ∧
      (∀ p ∈ ps, ∃ q ∈ out, q.sku = p.sku) ∧
      (∀ q ∈ out, ps.find? (fun p => p.sku == q.sku) = some q) := by
  intro ps out h
  unfold removeDuplicates at h
  refine ⟨removeDupAux_sublist h, (removeDupAux_skus h).2, ?_, ?_, removeDupAux_first h⟩
  · rw [removeDupAux_length h]
    simp
  · intro p hp
    rcases removeDupAux_covers h p hp with hseen | hq
    · cases hseen
    · exact hq

/-- Concrete input for the C6 witness: two records share sku "a". -/
def c6a : Rec := {sku := .val [97], name := .val [110]}

/-- Second record of the C6 witness input. -/
def c6b : Rec := {sku := .val [98]}

/-- A duplicate of `c6a`'s sku with a different payload. -/
def c6a2 : Rec := {sku := .val [97], name := .val [109]}

/-- Witness for C6: on `[c6a, c6b, c6a2]` deduplication returns `[c6a, c6b]`,
which is a sublist of the input with distinct skus, length 2, covering both
skus, each kept record being the first of its sku. -/
theorem c6_witness :
    removeDuplicates [c6a, c6b, c6a2] = .ok [c6a, c6b] ∧
    ([c6a, c6b] : List Rec).Sublist [c6a, c6b, c6a2] ∧
    (([c6a, c6b] : List Rec).map (fun r => r.sku)).Nodup ∧
    ([c6a, c6b] : List Rec).length =
      (([c6a, c6b, c6a2] : List Rec).map (fun r => r.sku)).toFinset.card := by
  have h : removeDuplicates [c6a, c6b, c6a2] = .ok [c6a, c6b] := by
    with_unfolding_all decide
  have hc := c6_dedup_first_occurrence [c6a, c6b, c6a2] [c6a, c6b] h
  exact ⟨h, hc.1, hc.2.1, hc.2.2.1⟩

/-! ### C1: discount recomputation from the cleaned price pair -/

/-- C1 (amended): for a record with positive original price the cleaner
recomputes the discount, ignoring any discount present in the raw input; it
equals `round1 ((1 - s2/o2) * 100)` on the rounded pair when the rounded sale
price is nonzero and below the rounded original price, and `0` otherwise —
in particular a sale price of exactly 0 yields discount 0 (Python truthiness),
and a missing sale-price value yields 0. -/
theorem c1_discount_recomputation :
    (∀ (p : Rec) (o : ℚ) (d : JField ℚ), p.original_price = .val o → 0 < o →
      validateAndCleanPrices {p with discount_percentage := d} =
        validateAndCleanPrices p) ∧
    (∀ (p : Rec) (o s : ℚ) (c : Rec) (b : Bool),
      p.original_price = .val o → 0 < o → p.sale_price = .val s →
      validateAndCleanPrices p = .ok (c, b) →
      (round2 s ≠ 0 → round2 s < round2 o →
        c.discount_percentage = .val (round1 ((1 - round2 s / round2 o) * 100))) ∧
      (round2 s = 0 ∨ round2 o ≤ round2 s →
        c.discount_percentage = .val 0)) ∧
    (∀ (p : Rec) (o : ℚ) (c : Rec) (b : Bool),
      p.original_price = .val o → 0 < o → p.sale_price = .null →
      validateAndCleanPrices p = .ok (c, b) →
      c.discount_percentage = .val 0) := by
  refine ⟨?_, ?_, ?_⟩
  · intro p o d hop ho
    simp only [validateAndCleanPrices, hop]
    rw [if_neg (not_le.mpr ho), if_neg (not_le.mpr ho)]
    cases hs : p.sale_price
    · dsimp only
    · dsimp only
    · rename_i s
      dsimp only
      by_cases hcl : round2 o < round2 s
      · rw [if_pos hcl, if_pos hcl]
      · rw [if_neg hcl, if_neg hcl]
  · intro p o s c b hop ho hsp hok
    simp only [validateAndCleanPrices, hop, hsp] at hok
    rw [if_neg (not_le.mpr ho)] at hok
    by_cases hcl : round2 o < round2 s
    · rw [if_pos hcl] at hok
      simp only [] at hok
      rw [if_neg (by simp)] at hok
      injection hok with hok
      injection hok with hok hb
      subst hok
      constructor
      · intro hne hlt
        exact absurd hcl (by linarith)
      · intro hc
        rfl
    · rw [if_neg hcl] at hok
      simp only [] at hok
      by_cases hcond : round2 s ≠ 0 ∧ round2 s < round2 o
      · rw [if_pos hcond] at hok
        by_cases ho2 : round2 o = 0
        · rw [if_pos ho2] at hok
          exact Except.noConfusion hok
        · rw [if_neg ho2] at hok
          injection hok with hok
          injection hok with hok hb
          subst hok
          constructor
          · intro hne hlt
            rfl
          · intro hc
            rcases hc with hc | hc
            · exact absurd hc hcond.1
            · exact absurd hcond.2 (by linarith)
      · rw [if_neg hcond] at hok
        injection hok with hok
        injection hok with hok hb
        subst hok
        constructor
        · intro hne hlt
          exact absurd (And.intro hne hlt) hcond
        · intro hc
          rfl
  · intro p o c b hop ho hsp hok
    simp only [validateAndCleanPrices, hop, hsp] at hok
    rw [if_neg (not_le.mpr ho)] at hok
    injection hok with hok
    injection hok with hok hb
    subst hok
    rfl

/-- The raw record of the C1 counterexample: positive original price, sale
price exactly 0, and a (to-be-ignored) raw discount of 30. -/
def c1p : Rec :=
  {sku := .val [97], original_price := .val 80, sale_price := .val 0,
   discount_percentage := .val 30}

/-- The cleaned output of `c1p`. -/
def c1c : Rec :=
  {sku := .val [97], original_price := .val 80, sale_price := .val 0,
   discount_percentage := .val 0}

/-- Counterexample to C1 as stated: for `original_price = 80`,
`sale_price = 0` we have `sale_price < original_price`, so the claimed
formula gives `round1 ((1 - 0/80) * 100) = 100`, but the code leaves the
discount at 0 because a 0.0 sale price is falsy in Python. -/
theorem c1_counterexample :
    validateAndCleanPrices c1p = .ok (c1c, true) ∧
    c1c.sale_price = .val 0 ∧
    c1c.original_price = .val 80 ∧
    (0 : ℚ) < 80 ∧
    round1 ((1 - (0 : ℚ) / 80) * 100) = 100 ∧
    c1c.discount_percentage = .val 0 ∧
    (100 : ℚ) ≠ 0 := by
  refine ⟨by with_unfolding_all decide, rfl, rfl, by norm_num,
    by with_unfolding_all decide, rfl, by norm_num⟩

/-- The raw record of the C1 witness. -/
def c1wp : Rec := {sku := .val [97], original_price := .val 80, sale_price := .val 60}

/-- The cleaned output of `c1wp`. -/
def c1wc : Rec :=
  {sku := .val [97], original_price := .val 80, sale_price := .val 60,
   discount_percentage := .val 25}

/-- Witness for C1: a raw pair 80/60 gets discount exactly 25.0, recomputed
by the formula. -/
theorem c1_witness :
    validateAndCleanPrices c1wp = .ok (c1wc, true) ∧
    c1wc.discount_percentage = .val (round1 ((1 - round2 60 / round2 80) * 100)) ∧
    round1 ((1 - round2 60 / round2 80) * 100) = 25 := by
  have h : validateAndCleanPrices c1wp = .ok (c1wc, true) := by
    with_unfolding_all decide
  have hf := (c1_discount_recomputation.2.1 c1wp 80 60 c1wc true rfl (by norm_num)
    rfl h).1 (by with_unfolding_all decide) (by with_unfolding_all decide)
  exact ⟨h, hf, by with_unfolding_all decide⟩

/-! ### C2: price invariants of cleaned records -/

theorem round1_nonneg {q : ℚ} (h : 0 ≤ q) : 0 ≤ round1 q := by
  unfold round1
  have h1 : (0 : ℤ) ≤ ⌊q * 10⌋ := Int.floor_nonneg.mpr (by linarith)
  have h2 := rhe_ge_floor (q * 10)
  have h3 : ((0 : ℤ) : ℚ) ≤ ((rhe (q * 10) : ℤ) : ℚ) := by exact_mod_cast le_trans h1 h2
  push_cast at h3
  linarith

/-- Everything the validated output of a record carrying the valid flag
satisfies: nonneg original price, recomputed discount, sale clamped below the
original, and the rounding-tolerance relation between discount and prices. -/
theorem validate_ok_inv {p c : Rec} (h : validateAndCleanPrices p = .ok (c, true)) :
    ∃ o2 d : ℚ, c.original_price = .val o2 ∧ 0 ≤ o2 ∧
      c.discount_percentage = .val d ∧ 0 ≤ d ∧
      (∀ s, c.sale_price = .val s → s ≤ o2) ∧
      (0 < d → ∃ s, c.sale_price = .val s ∧ s < o2) ∧
      (∀ s, c.sale_price = .val s → s ≠ 0 → s < o2 →
        0 < d ∨ (1 - s / o2) * 100 ≤ 1 / 20) := by
  cases hop : p.original_price <;> simp only [validateAndCleanPrices, hop] at h
  · injection h with h
    injection h with h1 h2
    exact Bool.noConfusion h2
  · injection h with h
    injection h with h1 h2
    exact Bool.noConfusion h2
  · rename_i o
    by_cases ho : o ≤ 0
    · rw [if_pos ho] at h
      injection h with h
      injection h with h1 h2
      exact Bool.noConfusion h2
    · rw [if_neg ho] at h
      push_neg at ho
      have ho2 : 0 ≤ round2 o := round2_nonneg ho.le
      cases hsp : p.sale_price <;> rw [hsp] at h <;> dsimp only at h
      · exact Except.noConfusion h
      · injection h with h
        injection h with h1 h2
        subst h1
        refine ⟨round2 o, 0, rfl, ho2, rfl, le_refl 0, ?_, ?_, ?_⟩
        · intro s hs
          exact JField.noConfusion hs
        · intro hd
          exact absurd hd (lt_irrefl 0)
        · intro s hs
          exact JField.noConfusion hs
      · rename_i s
        by_cases hcl : round2 o < round2 s
        · rw [if_pos hcl] at h
          dsimp only at h
          rw [if_neg (by simp)] at h
          injection h with h
          injection h with h1 h2
          subst h1
          refine ⟨round2 o, 0, rfl, ho2, rfl, le_refl 0, ?_, ?_, ?_⟩
          · intro s' hs'
            injection hs' with hs'
            subst hs'
            exact le_refl _
          · intro hd
            exact absurd hd (lt_irrefl 0)
          · intro s' hs' hne hlt
            injection hs' with hs'
            subst hs'
            exact absurd hlt (lt_irrefl _)
        · rw [if_neg hcl] at h
          push_neg at hcl
          dsimp only at h
          by_cases hcond : round2 s ≠ 0 ∧ round2 s < round2 o
          · rw [if_pos hcond] at h
            by_cases hz : round2 o = 0
            · rw [if_pos hz] at h
              exact Except.noConfusion h
            · rw [if_neg hz] at h
              injection h with h
              injection h with h1 h2
              subst h1
              have hopos : 0 < round2 o := lt_of_le_of_ne ho2 (Ne.symm hz)
              have htpos : 0 < (1 - round2 s / round2 o) * 100 := by
                have : round2 s / round2 o < 1 := (div_lt_one hopos).mpr hcond.2
                linarith
              refine ⟨round2 o, round1 ((1 - round2 s / round2 o) * 100),
                rfl, ho2, rfl, round1_nonneg htpos.le, ?_, ?_, ?_⟩
              · intro s' hs'
                injection hs' with hs'
                subst hs'
                exact hcl
              · intro hd
                exact ⟨round2 s, rfl, hcond.2⟩
              · intro s' hs' hne hlt
                injection hs' with hs'
                subst hs'
                rcases lt_or_eq_of_le (round1_nonneg htpos.le) with hd | hd
                · exact Or.inl hd
                · exact Or.inr (round1_pos_bound htpos hd.symm)
          · rw [if_neg hcond] at h
            injection h with h
            injection h with h1 h2
            subst h1
            refine ⟨round2 o, 0, rfl, ho2, rfl, le_refl 0, ?_, ?_, ?_⟩
            · intro s' hs'
              injection hs' with hs'
              subst hs'
              exact hcl
            · intro hd
              exact absurd hd (lt_irrefl 0)
            · intro s' hs' hne hlt
              injection hs' with hs'
              subst hs'
              exact absurd (And.intro hne hlt) hcond

/-- The enrichment step only adds derived fields; the base fields pass
through unchanged. -/
theorem addDerived_preserves {p r : Rec} (h : addDerivedFeatures p = .ok r) :
    r.sku = p.sku ∧ r.name = p.name ∧ r.category = p.category ∧
    r.original_price = p.original_price ∧ r.sale_price = p.sale_price ∧
    r.discount_percentage = p.discount_percentage ∧ r.colors = p.colors ∧
    r.in_stock = p.in_stock := by
  unfold addDerivedFeatures at h
  cases hop : p.original_price <;> rw [hop] at h <;>
    cases hd : p.discount_percentage <;> rw [hd] at h <;>
    cases hc : p.colors <;> rw [hc] at h <;>
    simp only [Except.bind, bind, pure] at h <;>
    first
    | exact Except.noConfusion h
    | (injection h with h
       subst h
       exact ⟨rfl, rfl, rfl, rfl, rfl, rfl, rfl, rfl⟩)

/-- Inversion of the per-record cleaning step on a kept record. -/
theorem processRecord_some_inv {p r : Rec} (h : processRecord p = .ok (some r)) :
    ∃ p2 : Rec,
      validateAndCleanPrices
        {p with name := .val (cleanProductName p.name),
                category := .val (standardizeCategory p.category)} = .ok (p2, true) ∧
      addDerivedFeatures p2 = .ok r := by
  unfold processRecord at h
  dsimp only at h
  cases hv : validateAndCleanPrices
      {p with name := .val (cleanProductName p.name),
              category := .val (standardizeCategory p.category)} with
  | error e =>
    rw [hv] at h
    exact Except.noConfusion h
  | ok pv =>
    rw [hv] at h
    obtain ⟨p2, valid⟩ := pv
    simp only [Except.bind, bind, pure] at h
    cases valid with
    | false =>
      simp only [Bool.false_eq_true, if_false] at h
      injection h with h
      exact Option.noConfusion h
    | true =>
      simp only [if_true] at h
      cases ha : addDerivedFeatures p2 with
      | error e =>
        rw [ha] at h
        exact Except.noConfusion h
      | ok p3 =>
        rw [ha] at h
        simp only [Except.bind, bind, pure] at h
        injection h with h
        injection h with h
        subst h
        exact ⟨p2, rfl, ha⟩

/-- Every record kept by the post-dedup cleaning loop comes from processing
some input record. -/
theorem cleanAux_mem {ps out : List Rec} {k : Nat} (h : cleanAux ps = .ok (out, k)) :
    ∀ r ∈ out, ∃ p ∈ ps, processRecord p = .ok (some r) := by
  induction ps generalizing out k with
  | nil =>
    unfold cleanAux at h
    injection h with h
    injection h with h1 h2
    subst h1
    intro r hr
    cases hr
  | cons p ps ih =>
    unfold cleanAux at h
    cases hp : processRecord p with
    | error e =>
      rw [hp] at h
      exact Except.noConfusion h
    | ok res =>
      rw [hp] at h
      cases hrest : cleanAux ps with
      | error e =>
        rw [hrest] at h
        simp only [Except.bind, bind, pure] at h
        exact Except.noConfusion h
      | ok restk =>
        obtain ⟨rest, k'⟩ := restk
        rw [hrest] at h
        simp only [Except.bind, bind, pure] at h
        cases res with
        | none =>
          injection h with h
          injection h with h1 h2
          subst h1
          intro r hr
          obtain ⟨q, hq, hpr⟩ := ih hrest r hr
          exact ⟨q, List.mem_cons_of_mem _ hq, hpr⟩
        | some c =>
          injection h with h
          injection h with h1 h2
          subst h1
          intro r hr
          rcases List.mem_cons.mp hr with hr | hr
          · subst hr
            exact ⟨p, List.mem_cons_self _ _, hp⟩
          · obtain ⟨q, hq, hpr⟩ := ih hrest r hr
            exact ⟨q, List.mem_cons_of_mem _ hq, hpr⟩

/-- Every record output by the per-day cleaner comes from processing some
input record. -/
theorem cleanDaily_mem {ps out : List Rec} {k : Nat}
    (h : cleanDailyData ps = .ok (out, k)) :
    ∀ r ∈ out, ∃ p ∈ ps, processRecord p = .ok (some r) := by
  unfold cleanDailyData at h
  cases hq : removeDuplicates ps with
  | error e =>
    rw [hq] at h
    exact Except.noConfusion h
  | ok qs =>
    rw [hq] at h
    simp only [Except.bind, bind, pure] at h
    intro r hr
    obtain ⟨p, hp, hpr⟩ := cleanAux_mem h r hr
    exact ⟨p, (removeDupAux_sublist hq).subset hp, hpr⟩

/-- C2 (amended): every record kept by the per-day cleaner has a nonnegative
rounded original price and a nonnegative recomputed discount with
`discount > 0 → sale < original`; conversely `sale < original` forces a
positive discount or a true discount within the rounding tolerance 0.05,
provided the cleaned sale price is nonzero (a sale price of exactly 0 is kept
with discount 0); and an input sale price exceeding the original price is
repaired by clamping the sale price to the original with discount 0, not
rejected. -/
theorem c2_price_invariants :
    (∀ (ps out : List Rec) (k : Nat), cleanDailyData ps = .ok (out, k) →
      ∀ r ∈ out, ∃ o2 d : ℚ,
        r.original_price = .val o2 ∧ 0 ≤ o2 ∧
        r.discount_percentage = .val d ∧ 0 ≤ d ∧
        (∀ s, r.sale_price = .val s → s ≤ o2) ∧
        (0 < d → ∃ s, r.sale_price = .val s ∧ s < o2) ∧
        (∀ s, r.sale_price = .val s → s ≠ 0 → s < o2 →
          0 < d ∨ (1 - s / o2) * 100 ≤ 1 / 20)) ∧
    (∀ (p : Rec) (o s : ℚ) (c : Rec) (b : Bool),
      p.original_price = .val o → 0 < o → p.sale_price = .val s → o < s →
      validateAndCleanPrices p = .ok (c, b) →
      c.sale_price = .val (round2 o) ∧ c.original_price = .val (round2 o) ∧
      c.discount_percentage = .val 0) := by
  constructor
  · intro ps out k h r hr
    obtain ⟨p, hp, hpr⟩ := cleanDaily_mem h r hr
    obtain ⟨p2, hv, ha⟩ := processRecord_some_inv hpr
    obtain ⟨o2, d, hco, ho2, hcd, hd0, hle, hpos, htol⟩ := validate_ok_inv hv
    obtain ⟨hsku, hname, hcat, hop, hsp, hdp, hcols, hins⟩ := addDerived_preserves ha
    exact ⟨o2, d, hop ▸ hco, ho2, hdp ▸ hcd, hd0, fun s hs => hle s (hsp ▸ hs),
      fun hd => (hpos hd).imp (fun s hs => ⟨(hsp ▸ hs.1 : _), hs.2⟩),
      fun s hs => htol s (hsp ▸ hs)⟩
  · intro p o s c b hop ho hsp hos hok
    have hmono : round2 o ≤ round2 s := round2_mono hos.le
    simp only [validateAndCleanPrices, hop, hsp] at hok
    rw [if_neg (not_le.mpr ho)] at hok
    by_cases hcl : round2 o < round2 s
    · rw [if_pos hcl] at hok
      dsimp only at hok
      rw [if_neg (by simp)] at hok
      injection hok with hok
      injection hok with h1 h2
      subst h1
      exact ⟨rfl, rfl, rfl⟩
    · have heq : round2 s = round2 o := le_antisymm (not_lt.mp hcl) hmono
      rw [if_neg hcl] at hok
      dsimp only at hok
      rw [if_neg (by rw [heq]; simp)] at hok
      injection hok with hok
      injection hok with h1 h2
      subst h1
      exact ⟨by rw [heq], rfl, rfl⟩

/-- The raw record of the C2 counterexample. -/
def c2p : Rec := {sku := .val [97], original_price := .val 80, sale_price := .val 0}

/-- The cleaned output of `c2p`. -/
def c2out : Rec :=
  {sku := .val [97], name := .val unknownProduct, category := .val uncategorized,
   original_price := .val 80, sale_price := .val 0, discount_percentage := .val 0,
   price_tier := .val "mid-range", discount_tier := .val "none",
   num_colors := .val 0, savings_amount := .val 0}

/-- Counterexample to C2 as stated: the cleaner keeps a record with
`sale_price = 0 < 80 = original_price` yet `discount_percentage = 0`, and the
true discount `(1 - 0/80) * 100 = 100` is far beyond the rounding tolerance
0.05, so `discount_percentage > 0 ⇔ sale_price < original_price` fails even
within tolerance. -/
theorem c2_counterexample :
    cleanDailyData [c2p] = .ok ([c2out], 0) ∧
    c2out.sale_price = .val 0 ∧
    c2out.original_price = .val 80 ∧
    c2out.discount_percentage = .val 0 ∧
    (0 : ℚ) < 80 ∧
    ¬ ((1 - (0 : ℚ) / 80) * 100 ≤ 1 / 20) := by
  refine ⟨by with_unfolding_all decide, rfl, rfl, rfl, by norm_num, by norm_num⟩

/-- The raw record of the C2 witness: sale price above the original price. -/
def c2wp : Rec := {sku := .val [97], original_price := .val 80, sale_price := .val 100}

/-- The validated output of `c2wp`. -/
def c2wc : Rec :=
  {sku := .val [97], original_price := .val 80, sale_price := .val 80,
   discount_percentage := .val 0}

/-- Witness for C2: the inconsistent pair 80/100 is clamped to 80/80 with
discount 0, and the kept record of the counterexample run satisfies the
amended invariants. -/
theorem c2_witness :
    (80 : ℚ) < 100 ∧
    validateAndCleanPrices c2wp = .ok (c2wc, true) ∧
    c2wc.sale_price = .val (round2 80) ∧
    c2wc.original_price = .val (round2 80) ∧
    c2wc.discount_percentage = .val 0 := by
  have h : validateAndCleanPrices c2wp = .ok (c2wc, true) := by
    with_unfolding_all decide
  have hc := c2_price_invariants.2 c2wp 80 100 c2wc true rfl (by norm_num) rfl
    (by norm_num) h
  exact ⟨by norm_num, h, hc.1, hc.2.1, hc.2.2⟩

/-! ### C3: invalid-priced records are excluded everywhere -/

/-- The price-validity test of `validate_and_clean_prices` lines 83–86:
`original_price` missing, `None`, or ≤ 0. -/
def priceInvalid (p : Rec) : Bool :=
  match p.original_price with
  | .val o => decide (o ≤ 0)
  | _ => true

/-- A record with a valid price either makes the validator raise or come back
with the valid flag set — it is never silently marked invalid. -/
theorem validate_true_of_valid {q : Rec} {o : ℚ} (hop : q.original_price = .val o)
    (ho : 0 < o) :
    (∃ e, validateAndCleanPrices q = .error e) ∨
    ∃ c, validateAndCleanPrices q = .ok (c, true) := by
  simp only [validateAndCleanPrices, hop]
  rw [if_neg (not_le.mpr ho)]
  cases hsp : q.sale_price <;> dsimp only
  · exact Or.inl ⟨_, rfl⟩
  · exact Or.inr ⟨_, rfl⟩
  · rename_i s
    by_cases hcl : round2 o < round2 s
    · rw [if_pos hcl]
      dsimp only
      rw [if_neg (by simp)]
      exact Or.inr ⟨_, rfl⟩
    · rw [if_neg hcl]
      dsimp only
      by_cases hcond : round2 s ≠ 0 ∧ round2 s < round2 o
      · rw [if_pos hcond]
        by_cases hz : round2 o = 0
        · rw [if_pos hz]
          exact Or.inl ⟨_, rfl⟩
        · rw [if_neg hz]
          exact Or.inr ⟨_, rfl⟩
      · rw [if_neg hcond]
        exact Or.inr ⟨_, rfl⟩

/-- A record is skipped by the cleaning loop exactly when its original price
is missing, `None`, or nonpositive. -/
theorem processRecord_none_iff (p : Rec) :
    processRecord p = .ok none ↔ priceInvalid p = true := by
  constructor
  · intro h
    by_contra hinv
    have hfalse : priceInvalid p = false := by
      cases hpi : priceInvalid p
      · rfl
      · exact absurd hpi hinv
    have hval : ∃ o, p.original_price = .val o ∧ 0 < o := by
      unfold priceInvalid at hfalse
      cases hop : p.original_price <;> rw [hop] at hfalse
      · exact Bool.noConfusion hfalse
      · exact Bool.noConfusion hfalse
      · rename_i o
        exact ⟨o, rfl, not_le.mp (of_decide_eq_false hfalse)⟩
    obtain ⟨o, hop, ho⟩ := hval
    have hop1 : ({p with name := .val (cleanProductName p.name),
                         category := .val (standardizeCategory p.category)} :
        Rec).original_price = .val o := hop
    unfold processRecord at h
    dsimp only at h
    rcases validate_true_of_valid hop1 ho with ⟨e, he⟩ | ⟨c, hc⟩
    · rw [he] at h
      exact Except.noConfusion h
    · rw [hc] at h
      simp only [Except.bind, bind, pure] at h
      rw [if_true] at h
      cases ha : addDerivedFeatures c with
      | error e =>
        rw [ha] at h
        exact Except.noConfusion h
      | ok r =>
        rw [ha] at h
        simp only [Except.bind, bind, pure] at h
        injection h with h
        exact Option.noConfusion h
  · intro h
    unfold priceInvalid at h
    unfold processRecord
    dsimp only
    cases hop : p.original_price <;> rw [hop] at h
    · simp only [validateAndCleanPrices, hop]
      rfl
    · simp only [validateAndCleanPrices, hop]
      rfl
    · rename_i o
      simp only [validateAndCleanPrices, hop]
      rw [if_pos (of_decide_eq_true h)]
      rfl

/-- The invalid-record count of the cleaning loop is exactly the number of
invalid-priced records it sees. -/
theorem cleanAux_count {ps out : List Rec} {k : Nat}
    (h : cleanAux ps = .ok (out, k)) :
    k = (ps.filter priceInvalid).length := by
  induction ps generalizing out k with
  | nil =>
    unfold cleanAux at h
    injection h with h
    injection h with h1 h2
    subst h2
    simp
  | cons p ps ih =>
    unfold cleanAux at h
    cases hp : processRecord p <;> rw [hp] at h
    · exact Except.noConfusion h
    · rename_i res
      cases hrest : cleanAux ps <;> rw [hrest] at h <;>
        simp only [Except.bind, bind, pure] at h
      · exact Except.noConfusion h
      · rename_i restk
        obtain ⟨rest, k'⟩ := restk
        cases res with
        | none =>
          injection h with h
          injection h with h1 h2
          subst h2
          have hpi : priceInvalid p = true := (processRecord_none_iff p).mp hp
          rw [List.filter_cons_of_pos (by rw [hpi])]
          rw [List.length_cons, ih hrest]
        | some c =>
          injection h with h
          injection h with h1 h2
          subst h2
          have hpi : ¬ priceInvalid p = true := by
            intro hx
            have := (processRecord_none_iff p).mpr hx
            rw [hp] at this
            injection this with this
            exact Option.noConfusion this
          rw [List.filter_cons_of_neg (by simpa using hpi)]
          exact ih hrest

/-- Inversion of `mapE`: every output element comes from some input element. -/
theorem mapE_mem {α β : Type} {f : α → Except PyError β} {l : List α}
    {out : List β} (h : mapE f l = .ok out) :
    ∀ b ∈ out, ∃ a ∈ l, f a = .ok b := by
  induction l generalizing out with
  | nil =>
    unfold mapE at h
    injection h with h
    subst h
    intro b hb
    cases hb
  | cons a as ih =>
    unfold mapE at h
    cases ha : f a <;> rw [ha] at h <;> simp only [Except.bind, bind, pure] at h
    · exact Except.noConfusion h
    · rename_i b0
      cases hrest : mapE f as <;> rw [hrest] at h <;>
        simp only [Except.bind, bind, pure] at h
      · exact Except.noConfusion h
      · rename_i bs
        injection h with h
        subst h
        intro b hb
        rcases List.mem_cons.mp hb with hb | hb
        · subst hb
          exact ⟨a, List.mem_cons_self _ _, ha⟩
        · obtain ⟨a', ha', hfa⟩ := ih hrest b hb
          exact ⟨a', List.mem_cons_of_mem _ ha', hfa⟩

/-- C3: a raw record whose original price is missing or nonpositive is
excluded: the cleaning loop maps it to `none` and never outputs it, the
reported count equals the number of such records after deduplication, and
every row of the assembled time-series table originates from a record of
some daily collection, hence from a valid-priced raw record. -/
theorem c3_invalid_excluded :
    (∀ p : Rec, priceInvalid p = true → processRecord p = .ok none) ∧
    (∀ (ps out : List Rec) (k : Nat), cleanDailyData ps = .ok (out, k) →
      (∀ r ∈ out, ∃ p ∈ ps, priceInvalid p = false ∧
        processRecord p = .ok (some r)) ∧
      ∃ qs, removeDuplicates ps = .ok qs ∧ k = (qs.filter priceInvalid).length) ∧
    (∀ (days : List (Nat × List Rec)) (tbl : List Row),
      createTimeSeriesData days = .ok tbl →
      ∀ row ∈ tbl, ∃ d recs r, (d, recs) ∈ days ∧ r ∈ recs ∧
        rowOfRec d r = .ok row) := by
  refine ⟨?_, ?_, ?_⟩
  · intro p h
    exact (processRecord_none_iff p).mpr h
  · intro ps out k h
    constructor
    · intro r hr
      obtain ⟨p, hp, hpr⟩ := cleanDaily_mem h r hr
      refine ⟨p, hp, ?_, hpr⟩
      cases hpi : priceInvalid p
      · rfl
      · have := (processRecord_none_iff p).mpr hpi
        rw [hpr] at this
        injection this with this
        exact Option.noConfusion this
    · unfold cleanDailyData at h
      cases hq : removeDuplicates ps with
      | error e =>
        rw [hq] at h
        exact Except.noConfusion h
      | ok qs =>
        rw [hq] at h
        simp only [Except.bind, bind, pure] at h
        exact ⟨qs, rfl, cleanAux_count h⟩
  · intro days tbl h
    unfold createTimeSeriesData at h
    dsimp only at h
    cases hm : mapE (fun dr => mapE (rowOfRec dr.1) dr.2)
        (List.insertionSort (fun a b => a.1 ≤ b.1) days) with
    | error e =>
      rw [hm] at h
      exact Except.noConfusion h
    | ok rowss =>
      rw [hm] at h
      simp only [Except.bind, bind, pure] at h
      injection h with h
      subst h
      intro row hrow
      obtain ⟨rows, hrows, hrowmem⟩ := List.mem_flatten.mp hrow
      obtain ⟨dr, hdr, hday⟩ := mapE_mem hm rows hrows
      obtain ⟨r, hr, hrrow⟩ := mapE_mem hday row hrowmem
      refine ⟨dr.1, dr.2, r, ?_, hr, hrrow⟩
      have := (List.perm_insertionSort (fun a b => a.1 ≤ b.1) days).mem_iff.mp hdr
      simpa using this

/-- An invalid-priced record for the C3 witness. -/
def c3bad : Rec := {sku := .val [98], original_price := .null, sale_price := .null}

/-- A valid record for the C3 witness. -/
def c3good : Rec := {sku := .val [97], original_price := .val 80, sale_price := .val 60}

/-- The cleaned output of `c3good`. -/
def c3gout : Rec :=
  {sku := .val [97], name := .val unknownProduct, category := .val uncategorized,
   original_price := .val 80, sale_price := .val 60, discount_percentage := .val 25,
   price_tier := .val "mid-range", discount_tier := .val "medium",
   num_colors := .val 0, savings_amount := .val 20}

/-- Witness for C3: the invalid record maps to `none` and a run keeping only
the valid record reports an invalid count of one. -/
theorem c3_witness :
    processRecord c3bad = .ok none ∧
    cleanDailyData [c3good, c3bad] = .ok ([c3gout], 1) := by
  refine ⟨c3_invalid_excluded.1 c3bad (by with_unfolding_all decide), ?_⟩
  with_unfolding_all decide

/-! ### C10: totality of per-day cleaning under key presence -/

/-- The input pattern that drives the discount recomputation into the
division `s2 / o2` with `o2 = 0`: a positive original price that rounds to
0.00 together with a sale price that rounds negative. -/
def zeroDivRisk (p : Rec) : Bool :=
  match p.original_price, p.sale_price with
  | .val o, .val s => decide (0 < o) && decide (round2 o = 0) && decide (round2 s < 0)
  | _, _ => false

/-- The validator passes every field other than the price triple through
unchanged. -/
theorem validate_preserves {p c : Rec} {b : Bool}
    (h : validateAndCleanPrices p = .ok (c, b)) :
    c.sku = p.sku ∧ c.name = p.name ∧ c.category = p.category ∧
    c.colors = p.colors ∧ c.in_stock = p.in_stock ∧
    c.price_tier = p.price_tier ∧ c.discount_tier = p.discount_tier ∧
    c.num_colors = p.num_colors ∧ c.savings_amount = p.savings_amount := by
  cases hop : p.original_price <;> simp only [validateAndCleanPrices, hop] at h
  · injection h with h
    injection h with h1 h2
    subst h1
    exact ⟨rfl, rfl, rfl, rfl, rfl, rfl, rfl, rfl, rfl⟩
  · injection h with h
    injection h with h1 h2
    subst h1
    exact ⟨rfl, rfl, rfl, rfl, rfl, rfl, rfl, rfl, rfl⟩
  · rename_i o
    by_cases ho : o ≤ 0
    · rw [if_pos ho] at h
      injection h with h
      injection h with h1 h2
      subst h1
      exact ⟨rfl, rfl, rfl, rfl, rfl, rfl, rfl, rfl, rfl⟩
    · rw [if_neg ho] at h
      cases hsp : p.sale_price <;> rw [hsp] at h <;> dsimp only at h
      · exact Except.noConfusion h
      · injection h with h
        injection h with h1 h2
        subst h1
        exact ⟨rfl, rfl, rfl, rfl, rfl, rfl, rfl, rfl, rfl⟩
      · rename_i s
        by_cases hcl : round2 o < round2 s
        · rw [if_pos hcl] at h
          dsimp only at h
          rw [if_neg (by simp)] at h
          injection h with h
          injection h with h1 h2
          subst h1
          exact ⟨rfl, rfl, rfl, rfl, rfl, rfl, rfl, rfl, rfl⟩
        · rw [if_neg hcl] at h
          dsimp only at h
          by_cases hcond : round2 s ≠ 0 ∧ round2 s < round2 o
          · rw [if_pos hcond] at h
            by_cases hz : round2 o = 0
            · rw [if_pos hz] at h
              exact Except.noConfusion h
            · rw [if_neg hz] at h
              injection h with h
              injection h with h1 h2
              subst h1
              exact ⟨rfl, rfl, rfl, rfl, rfl, rfl, rfl, rfl, rfl⟩
          · rw [if_neg hcond] at h
            injection h with h
            injection h with h1 h2
            subst h1
            exact ⟨rfl, rfl, rfl, rfl, rfl, rfl, rfl, rfl, rfl⟩

/-- The validator returns without raising whenever the `sale_price` key is
present and the zero-division pattern is absent. -/
theorem validate_total {q : Rec} (hsale : q.sale_price ≠ .absent)
    (hrisk : zeroDivRisk q = false) :
    ∃ cb, validateAndCleanPrices q = .ok cb := by
  cases hop : q.original_price <;> simp only [validateAndCleanPrices, hop]
  · exact ⟨_, rfl⟩
  · exact ⟨_, rfl⟩
  · rename_i o
    by_cases ho : o ≤ 0
    · rw [if_pos ho]
      exact ⟨_, rfl⟩
    · rw [if_neg ho]
      push_neg at ho
      cases hsp : q.sale_price <;> dsimp only
      · exact absurd hsp hsale
      · exact ⟨_, rfl⟩
      · rename_i s
        by_cases hcl : round2 o < round2 s
        · rw [if_pos hcl]
          dsimp only
          rw [if_neg (by simp)]
          exact ⟨_, rfl⟩
        · rw [if_neg hcl]
          dsimp only
          by_cases hcond : round2 s ≠ 0 ∧ round2 s < round2 o
          · rw [if_pos hcond]
            have hz : ¬ round2 o = 0 := by
              intro hz
              have hs0 : round2 s < 0 := by
                have := hcond.2
                rw [hz] at this
                exact this
              unfold zeroDivRisk at hrisk
              rw [hop, hsp] at hrisk
              simp only [Bool.and_eq_false_iff, decide_eq_false_iff_not] at hrisk
              rcases hrisk with (hx | hx) | hx
              · exact hx ho
              · exact hx hz
              · exact hx hs0
            rw [if_neg hz]
            exact ⟨_, rfl⟩
          · rw [if_neg hcond]
            exact ⟨_, rfl⟩

/-- Enrichment returns without raising whenever the price fields are not
`None` and the colour list is not `None`. -/
theorem addDerived_total {q : Rec} (hop : q.original_price ≠ .null)
    (hd : q.discount_percentage ≠ .null) (hc : q.colors ≠ .null) :
    ∃ r, addDerivedFeatures q = .ok r := by
  unfold addDerivedFeatures
  cases hop2 : q.original_price <;>
    cases hd2 : q.discount_percentage <;>
    cases hc2 : q.colors <;>
    first
    | exact absurd hop2 hop
    | exact absurd hd2 hd
    | exact absurd hc2 hc
    | (dsimp only
       exact ⟨_, rfl⟩)

/-- The discount field of a validated record carrying the valid flag. -/
theorem validate_ok_discount {p c : Rec} (h : validateAndCleanPrices p = .ok (c, true)) :
    ∃ d : ℚ, c.discount_percentage = .val d :=
  match validate_ok_inv h with
  | ⟨_, d, _, _, hd, _⟩ => ⟨d, hd⟩

/-- The per-record cleaning step never raises under the key-presence and
non-null-colours conditions. -/
theorem processRecord_total {p : Rec} (hsale : p.sale_price ≠ .absent)
    (hcols : p.colors ≠ .null) (hrisk : zeroDivRisk p = false) :
    ∃ res, processRecord p = .ok res := by
  unfold processRecord
  dsimp only
  have hsale1 : ({p with name := .val (cleanProductName p.name),
                         category := .val (standardizeCategory p.category)} :
      Rec).sale_price ≠ .absent := hsale
  have hrisk1 : zeroDivRisk {p with name := .val (cleanProductName p.name),
                                    category := .val (standardizeCategory p.category)} =
      false := hrisk
  obtain ⟨⟨c, b⟩, hv⟩ := validate_total hsale1 hrisk1
  rw [hv]
  simp only [Except.bind, bind, pure]
  cases b with
  | false =>
    rw [if_neg (by exact Bool.false_ne_true)]
    exact ⟨none, rfl⟩
  | true =>
    rw [if_pos rfl]
    obtain ⟨o2, d, hco, _, hcd, _⟩ := validate_ok_inv hv
    have hcolsc : c.colors ≠ .null := by
      rw [(validate_preserves hv).2.2.2.1]
      exact hcols
    obtain ⟨r, hr⟩ := addDerived_total (by rw [hco]; exact fun hx => JField.noConfusion hx)
      (by rw [hcd]; exact fun hx => JField.noConfusion hx) hcolsc
    rw [hr]
    exact ⟨some r, rfl⟩

/-- Deduplication never raises when every record carries a `sku` key. -/
theorem removeDupAux_total (seen : List (JField Str)) (ps : List Rec)
    (h : ∀ p ∈ ps, p.sku ≠ .absent) :
    ∃ out, removeDupAux seen ps = .ok out := by
  induction ps generalizing seen with
  | nil => exact ⟨[], rfl⟩
  | cons p ps ih =>
    unfold removeDupAux
    rw [if_neg (h p (List.mem_cons_self _ _))]
    by_cases hm : p.sku ∈ seen
    · rw [if_pos hm]
      exact ih seen (fun q hq => h q (List.mem_cons_of_mem _ hq))
    · rw [if_neg hm]
      obtain ⟨out, hout⟩ := ih (p.sku :: seen) (fun q hq => h q (List.mem_cons_of_mem _ hq))
      rw [hout]
      exact ⟨p :: out, rfl⟩

/-- The cleaning loop never raises when each record it sees processes
without raising. -/
theorem cleanAux_total (ps : List Rec)
    (h : ∀ p ∈ ps, ∃ res, processRecord p = .ok res) :
    ∃ outk, cleanAux ps = .ok outk := by
  induction ps with
  | nil => exact ⟨([], 0), rfl⟩
  | cons p ps ih =>
    unfold cleanAux
    obtain ⟨res, hres⟩ := h p (List.mem_cons_self _ _)
    rw [hres]
    obtain ⟨⟨rest, k⟩, hrest⟩ := ih (fun q hq => h q (List.mem_cons_of_mem _ hq))
    rw [hrest]
    simp only [Except.bind, bind, pure]
    cases res with
    | none => exact ⟨(rest, k + 1), rfl⟩
    | some c => exact ⟨(c :: rest, k), rfl⟩

/-- C10 (amended): per-day cleaning returns without raising for every input
list whose records all carry a `sku` key and a `sale_price` key (values
possibly null), have non-null colour lists, and avoid the zero-division
pattern (positive original price rounding to 0.00 with a negative sale
price); and a record with a positive original price but no `sale_price` key
at all makes cleaning raise KeyError. -/
theorem c10_cleaning_totality :
    (∀ ps : List Rec,
      (∀ p ∈ ps, p.sku ≠ .absent ∧ p.sale_price ≠ .absent ∧
        p.colors ≠ .null ∧ zeroDivRisk p = false) →
      ∃ res, cleanDailyData ps = .ok res) ∧
    ((∃ o : ℚ, ({sku := .val [97], original_price := .val 80} : Rec).original_price =
        .val o ∧ 0 < o) ∧
      cleanDailyData [{sku := .val [97], original_price := .val 80}] =
        .error .keyError) := by
  constructor
  · intro ps h
    unfold cleanDailyData
    unfold removeDuplicates
    obtain ⟨qs, hqs⟩ := removeDupAux_total [] ps (fun p hp => (h p hp).1)
    rw [hqs]
    simp only [Except.bind, bind, pure]
    have hsub := (removeDupAux_sublist hqs).subset
    exact cleanAux_total qs (fun q hq =>
      processRecord_total (h q (hsub hq)).2.1 (h q (hsub hq)).2.2.1
        (h q (hsub hq)).2.2.2)
  · exact ⟨⟨80, rfl, by norm_num⟩, by with_unfolding_all decide⟩

/-- A record with a null colour list: both required keys are present. -/
def c10null : Rec :=
  {sku := .val [97], original_price := .val 80, sale_price := .null,
   colors := .null}

/-- A record whose positive original price rounds to 0.00 and whose sale
price is negative. -/
def c10tiny : Rec :=
  {sku := .val [98], original_price := .val (1/250), sale_price := .val (-1)}

/-- Counterexample to C10 as stated: both records carry the `sku` and
`sale_price` keys, yet cleaning raises — a TypeError on the null colour list
(`len(None)`), and a ZeroDivisionError on the price pair 0.004 / −1. -/
theorem c10_counterexample :
    c10null.sku ≠ .absent ∧ c10null.sale_price ≠ .absent ∧
    (∃ o : ℚ, c10null.original_price = .val o ∧ 0 < o) ∧
    cleanDailyData [c10null] = .error .typeError ∧
    c10tiny.sku ≠ .absent ∧ c10tiny.sale_price ≠ .absent ∧
    (∃ o : ℚ, c10tiny.original_price = .val o ∧ 0 < o) ∧
    cleanDailyData [c10tiny] = .error .zeroDivisionError := by
  refine ⟨by with_unfolding_all decide, by with_unfolding_all decide,
    ⟨80, rfl, by norm_num⟩, by with_unfolding_all decide,
    by with_unfolding_all decide, by with_unfolding_all decide,
    ⟨1/250, rfl, by norm_num⟩, by with_unfolding_all decide⟩

/-- A fully benign record for the C10 witness. -/
def c10w : Rec :=
  {sku := .val [99], original_price := .val 50, sale_price := .val 40,
   colors := .val [[114]]}

/-- Witness for C10: on the benign single-record list, cleaning returns
without raising. -/
theorem c10_witness : (cleanDailyData [c10w]).isOk = true := by
  obtain ⟨res, hres⟩ := c10_cleaning_totality.1 [c10w] (by
    intro p hp
    have hp1 : p = c10w := by
      rcases List.mem_singleton.mp hp with h
      exact h
    subst hp1
    refine ⟨by with_unfolding_all decide, by with_unfolding_all decide,
      by with_unfolding_all decide, by with_unfolding_all decide⟩)
  rw [hres]
  rfl

/-! ### C5: discount volatility -/

theorem absDiffsO_map_some : ∀ ys : List ℚ,
    absDiffsO (ys.map some) = (absDiffs ys).map some
  | [] => rfl
  | [_] => rfl
  | a :: b :: t => by
    have ih := absDiffsO_map_some (b :: t)
    simp only [List.map_cons] at ih ⊢
    simp only [absDiffsO, absDiffs, List.map_cons]
    rw [ih]

/-- On a row list whose discounts are all present, the discount column equals
the extracted discount values. -/
theorem map_disc_of_present (l : List Row)
    (hs : ∀ r ∈ l, r.discount_percentage ≠ none) :
    l.map (fun r => r.discount_percentage) =
      (l.filterMap (fun r => r.discount_percentage)).map some := by
  induction l with
  | nil => rfl
  | cons r t ih =>
    cases hd : r.discount_percentage with
    | none => exact absurd hd (hs r (List.mem_cons_self _ _))
    | some q =>
      simp only [List.map_cons, List.filterMap_cons, hd]
      rw [ih (fun x hx => hs x (List.mem_cons_of_mem _ hx))]

/-- With one row per date, the per-date averages are just the row values. -/
theorem map_dateAvg_of_nodup (l : List Row)
    (hnd : (l.map (fun r => r.date)).Nodup)
    (hs : ∀ r ∈ l, r.discount_percentage ≠ none) :
    (l.map (fun r => r.date)).map (fun d =>
      ((l.filter (fun r => r.date = d)).filterMap
        (fun r => r.discount_percentage)).sum /
      ((l.filter (fun r => r.date = d)).filterMap
        (fun r => r.discount_percentage)).length) =
    l.filterMap (fun r => r.discount_percentage) := by
  induction l with
  | nil => rfl
  | cons r t ih =>
    simp only [List.map_cons, List.nodup_cons] at hnd
    obtain ⟨hrd, hndt⟩ := hnd
    cases hd : r.discount_percentage with
    | none => exact absurd hd (hs r (List.mem_cons_self _ _))
    | some q =>
      have hhead : (r :: t).filter (fun x => decide (x.date = r.date)) = [r] := by
        rw [List.filter_cons_of_pos (by simp)]
        rw [List.filter_eq_nil_iff.mpr]
        intro x hx
        simp only [decide_eq_true_eq]
        intro hdx
        exact hrd (hdx ▸ List.mem_map_of_mem (fun r => r.date) hx)
      have htail : ∀ d ∈ t.map (fun r => r.date),
          (r :: t).filter (fun x => decide (x.date = d)) =
          t.filter (fun x => decide (x.date = d)) := by
        intro d hdm
        rw [List.filter_cons_of_neg]
        simp only [decide_eq_true_eq]
        intro hrdd
        exact hrd (hrdd ▸ hdm)
      simp only [List.map_cons]
      rw [hhead]
      simp only [List.filterMap_cons, hd]
      congr 1
      · simp
      · rw [List.map_congr_left (fun d hdm => by rw [htail d hdm])]
        exact ih hndt (fun x hx => hs x (List.mem_cons_of_mem _ hx))

/-- C5 (amended): the reported discount volatility is the mean absolute
successive difference of the category's individual row discounts in table
order, not of its daily average discounts; the two coincide whenever the
category has exactly one row per date (and all its discounts are present). -/
theorem c5_volatility_rowwise :
    ∀ (tbl : List Row) (cat : Str),
      ((catRows tbl cat).map (fun r => r.date)).Nodup →
      (∀ r ∈ catRows tbl cat, r.discount_percentage ≠ none) →
      discountVolatility tbl cat = specVolatility tbl cat := by
  intro tbl cat hnd hs
  unfold discountVolatility specVolatility diffAbsMean catDates dateAvgDiscount
  rw [map_disc_of_present (catRows tbl cat) hs, absDiffsO_map_some,
    List.dedup_eq_self.mpr hnd]
  rw [map_dateAvg_of_nodup (catRows tbl cat) hnd hs]
  congr 1
  congr 1
  simp

/-- Raw day-1 records of the C5 counterexample (category "c", two skus). -/
def cx1 : Rec := {sku := .val [120], category := .val [99],
                  original_price := .val 100, sale_price := .val 100}

/-- Second raw day-1 record. -/
def cy1 : Rec := {sku := .val [121], category := .val [99],
                  original_price := .val 100, sale_price := .val 90}

/-- First raw day-2 record. -/
def cx2 : Rec := {sku := .val [120], category := .val [99],
                  original_price := .val 100, sale_price := .val 90}

/-- Second raw day-2 record. -/
def cy2 : Rec := {sku := .val [121], category := .val [99],
                  original_price := .val 100, sale_price := .val 100}

/-- A cleaned record of the C5 counterexample. -/
def mkcr (sk : Nat) (sp dq : ℚ) (dt : String) (sv : ℚ) : Rec :=
  {sku := .val [sk], name := .val unknownProduct, category := .val [99],
   original_price := .val 100, sale_price := .val sp,
   discount_percentage := .val dq, price_tier := .val "premium",
   discount_tier := .val dt, num_colors := .val 0, savings_amount := .val sv}

/-- A row of the C5 counterexample table. -/
def mkRow5 (d : Nat) (sk : Nat) (sp dq : ℚ) (dt : String) (sv : ℚ) : Row :=
  { date := d, sku := some [sk], name := some unknownProduct,
    category := some [99], original_price := some 100, sale_price := some sp,
    discount_percentage := some dq, price_tier := some "premium",
    discount_tier := some dt, in_stock := some true, savings_amount := some sv }

/-- The assembled table of the C5 counterexample: one category over two
dates, two rows per date, discounts 0, 10 then 10, 0. -/
def c5tbl : List Row :=
  [mkRow5 1 120 100 0 "none" 0, mkRow5 1 121 90 10 "small" 10,
   mkRow5 2 120 90 10 "small" 10, mkRow5 2 121 100 0 "none" 0]

/-- Counterexample to C5 as stated: on an assembled table (produced by the
actual pipeline from raw records) whose category has daily average discounts
5 and 5, the spec's day-over-day formula gives volatility 0, but the code's
row-wise diff gives 6.67. -/
theorem c5_counterexample :
    cleanDailyData [cx1, cy1] =
      .ok ([mkcr 120 100 0 "none" 0, mkcr 121 90 10 "small" 10], 0) ∧
    cleanDailyData [cx2, cy2] =
      .ok ([mkcr 120 90 10 "small" 10, mkcr 121 100 0 "none" 0], 0) ∧
    createTimeSeriesData
      [(1, [mkcr 120 100 0 "none" 0, mkcr 121 90 10 "small" 10]),
       (2, [mkcr 120 90 10 "small" 10, mkcr 121 100 0 "none" 0])] = .ok c5tbl ∧
    discountVolatility c5tbl [99] = some (667/100) ∧
    specVolatility c5tbl [99] = some 0 ∧
    discountVolatility c5tbl [99] ≠ specVolatility c5tbl [99] := by
  refine ⟨by with_unfolding_all decide, by with_unfolding_all decide,
    by with_unfolding_all decide, by with_unfolding_all decide,
    by with_unfolding_all decide, by with_unfolding_all decide⟩

/-- A one-row-per-date table for the C5 witness. -/
def c5wtbl : List Row :=
  [mkRow5 1 120 100 0 "none" 0, mkRow5 2 120 90 10 "small" 10]

/-- Witness for C5: on a table with one row per date in the category, the
code's volatility equals the spec's day-over-day formula. -/
theorem c5_witness :
    discountVolatility c5wtbl [99] = specVolatility c5wtbl [99] ∧
    discountVolatility c5wtbl [99] = some 10 := by
  refine ⟨c5_volatility_rowwise c5wtbl [99] (by with_unfolding_all decide) ?_,
    by with_unfolding_all decide⟩
  intro r hr
  fin_cases hr <;> simp [mkRow5]

/-! ### C8: character-level lemmas -/

theorem isSpaceC_toLowerC (c : Nat) : isSpaceC (toLowerC c) = isSpaceC c := by
  unfold toLowerC
  split
  · rename_i h
    unfold isUpperC at h
    rw [decide_eq_true_iff] at h
    unfold isSpaceC
    rw [decide_eq_decide]
    omega
  · rfl

theorem isSpaceC_toUpperC (c : Nat) : isSpaceC (toUpperC c) = isSpaceC c := by
  unfold toUpperC
  split
  · rename_i h
    unfold isLowerC at h
    rw [decide_eq_true_iff] at h
    unfold isSpaceC
    rw [decide_eq_decide]
    omega
  · rfl

theorem isCasedC_toLowerC (c : Nat) : isCasedC (toLowerC c) = isCasedC c := by
  unfold toLowerC
  split
  · rename_i h
    unfold isUpperC at h
    rw [decide_eq_true_iff] at h
    unfold isCasedC isUpperC isLowerC
    rw [Bool.eq_iff_iff]
    simp only [Bool.or_eq_true, decide_eq_true_iff]
    omega
  · rfl

theorem isCasedC_toUpperC (c : Nat) : isCasedC (toUpperC c) = isCasedC c := by
  unfold toUpperC
  split
  · rename_i h
    unfold isLowerC at h
    rw [decide_eq_true_iff] at h
    unfold isCasedC isUpperC isLowerC
    rw [Bool.eq_iff_iff]
    simp only [Bool.or_eq_true, decide_eq_true_iff]
    omega
  · rfl

theorem toLowerC_toLowerC (c : Nat) : toLowerC (toLowerC c) = toLowerC c := by
  unfold toLowerC isUpperC
  split
  · rename_i h
    rw [decide_eq_true_iff] at h
    rw [if_neg]
    rw [decide_eq_true_iff]
    omega
  · rfl

theorem toUpperC_toUpperC (c : Nat) : toUpperC (toUpperC c) = toUpperC c := by
  unfold toUpperC isLowerC
  split
  · rename_i h
    rw [decide_eq_true_iff] at h
    rw [if_neg]
    rw [decide_eq_true_iff]
    omega
  · rfl

/-! ### C8: title-casing and word-splitting lemmas -/

/-- The prev-cased flag after processing a string. -/
def flagAfter (b : Bool) : Str → Bool
  | [] => b
  | c :: cs => flagAfter (isCasedC c) cs

theorem titleS_length (w : Str) : ∀ b, (titleS b w).length = w.length := by
  induction w with
  | nil => intro b; rfl
  | cons c t ih =>
    intro b
    unfold titleS
    split <;> simp [ih]

theorem titleS_noSpace {w : Str} (hw : ∀ c ∈ w, isSpaceC c = false) :
    ∀ b, ∀ c ∈ titleS b w, isSpaceC c = false := by
  induction w with
  | nil =>
    intro b c hc
    cases hc
  | cons c t ih =>
    intro b x hx
    unfold titleS at hx
    split at hx
    · rcases List.mem_cons.mp hx with hx | hx
      · subst hx
        split
        · rw [isSpaceC_toLowerC]
          exact hw c (List.mem_cons_self _ _)
        · rw [isSpaceC_toUpperC]
          exact hw c (List.mem_cons_self _ _)
      · exact ih (fun y hy => hw y (List.mem_cons_of_mem _ hy)) true x hx
    · rcases List.mem_cons.mp hx with hx | hx
      · subst hx
        exact hw x (List.mem_cons_self _ _)
      · exact ih (fun y hy => hw y (List.mem_cons_of_mem _ hy)) false x hx

theorem titleS_cons (b : Bool) (c : Nat) (cs : Str) :
    titleS b (c :: cs) =
      if isCasedC c = true then
        (if b then toLowerC c else toUpperC c) :: titleS true cs
      else c :: titleS false cs := rfl

theorem flagAfter_cons (b : Bool) (c : Nat) (cs : Str) :
    flagAfter b (c :: cs) = flagAfter (isCasedC c) cs := rfl

theorem titleS_append (u : Str) : ∀ (b : Bool) (v : Str),
    titleS b (u ++ v) = titleS b u ++ titleS (flagAfter b u) v := by
  induction u with
  | nil => intro b v; rfl
  | cons c t ih =>
    intro b v
    rw [List.cons_append, titleS_cons, titleS_cons, flagAfter_cons]
    by_cases hc : isCasedC c = true
    · rw [if_pos hc, if_pos hc, hc, List.cons_append, ih true v]
    · have hc' : isCasedC c = false := by
        cases hx : isCasedC c
        · rfl
        · exact absurd hx hc
      rw [if_neg hc, if_neg hc, hc', List.cons_append, ih false v]

theorem joinSp_cons2 (a b : Str) (rest : List Str) :
    joinSp (a :: b :: rest) = a ++ 32 :: joinSp (b :: rest) := rfl

theorem titleS_join : ∀ ws : List Str,
    titleS false (joinSp ws) = joinSp (ws.map (titleS false))
  | [] => rfl
  | [w] => by simp [joinSp]
  | w :: v :: vs => by
    have ih := titleS_join (v :: vs)
    have h32 : isCasedC 32 = false := by decide
    rw [joinSp_cons2, titleS_append w false (32 :: joinSp (v :: vs)), titleS_cons,
      if_neg (by rw [h32]; exact Bool.false_ne_true), ih]
    simp only [List.map_cons]
    rw [joinSp_cons2]

theorem titleS_idem (w : Str) : ∀ b, titleS b (titleS b w) = titleS b w := by
  induction w with
  | nil => intro b; rfl
  | cons c t ih =>
    intro b
    cases b with
    | false =>
      rw [titleS_cons]
      by_cases hc : isCasedC c = true
      · rw [if_pos hc, if_neg Bool.false_ne_true]
        rw [titleS_cons, if_pos (by rw [isCasedC_toUpperC]; exact hc)]
        rw [if_neg Bool.false_ne_true]
        rw [toUpperC_toUpperC, ih true]
      · rw [if_neg hc, titleS_cons, if_neg hc, ih false]
    | true =>
      rw [titleS_cons]
      by_cases hc : isCasedC c = true
      · rw [if_pos hc, if_pos rfl]
        rw [titleS_cons, if_pos (by rw [isCasedC_toLowerC]; exact hc)]
        rw [if_pos rfl]
        rw [toLowerC_toLowerC, ih true]
      · rw [if_neg hc, titleS_cons, if_neg hc, ih false]

/-! ### C8: word-splitting lemmas -/

theorem wordsAux_append {w : Str} (hw : ∀ c ∈ w, isSpaceC c = false) :
    ∀ (cur s : Str), wordsAux cur (w ++ s) = wordsAux (w.reverse ++ cur) s := by
  induction w with
  | nil => intro cur s; simp
  | cons c t ih =>
    intro cur s
    rw [List.cons_append]
    unfold wordsAux
    rw [if_neg (by rw [hw c (List.mem_cons_self _ _)]; exact Bool.false_ne_true)]
    rw [ih (fun y hy => hw y (List.mem_cons_of_mem _ hy)) (c :: cur) s]
    have harg : t.reverse ++ c :: cur = (c :: t).reverse ++ cur := by simp
    rw [harg]
    exact wordsAux.eq_def ((c :: t).reverse ++ cur) s

theorem wordsS_join : ∀ ws : List Str,
    (∀ w ∈ ws, w ≠ [] ∧ ∀ c ∈ w, isSpaceC c = false) →
    wordsS (joinSp ws) = ws
  | [], _ => rfl
  | [w], h => by
    obtain ⟨hne, hns⟩ := h w (List.mem_cons_self _ _)
    show wordsAux [] (joinSp [w]) = [w]
    have : joinSp [w] = w ++ [] := by simp [joinSp]
    rw [this, wordsAux_append hns [] []]
    unfold wordsAux
    rw [if_neg (by simp [hne])]
    simp
  | w :: v :: vs, h => by
    obtain ⟨hne, hns⟩ := h w (List.mem_cons_self _ _)
    have ih := wordsS_join (v :: vs) (fun u hu => h u (List.mem_cons_of_mem _ hu))
    show wordsAux [] (w ++ 32 :: joinSp (v :: vs)) = w :: v :: vs
    rw [wordsAux_append hns [] (32 :: joinSp (v :: vs))]
    unfold wordsAux
    rw [if_pos (by decide)]
    rw [if_neg (by simp [hne])]
    rw [show wordsAux [] (joinSp (v :: vs)) = wordsS (joinSp (v :: vs)) from rfl, ih]
    simp

theorem wordsAux_chars : ∀ (s cur : Str), (∀ c ∈ cur, isSpaceC c = false) →
    ∀ w ∈ wordsAux cur s, w ≠ [] ∧ ∀ c ∈ w, isSpaceC c = false := by
  intro s
  induction s with
  | nil =>
    intro cur hcur w hw
    unfold wordsAux at hw
    split at hw
    · cases hw
    · rcases List.mem_cons.mp hw with hw | hw
      · subst hw
        refine ⟨by simpa using (by assumption : ¬ cur = []), ?_⟩
        intro c hc
        exact hcur c (List.mem_reverse.mp hc)
      · cases hw
  | cons c t ih =>
    intro cur hcur w hw
    unfold wordsAux at hw
    split at hw
    · split at hw
      · exact ih [] (by simp) w hw
      · rcases List.mem_cons.mp hw with hw | hw
        · subst hw
          refine ⟨by simpa using (by assumption : ¬ cur = []), ?_⟩
          intro x hx
          exact hcur x (List.mem_reverse.mp hx)
        · exact ih [] (by simp) w hw
    · rename_i hsp
      refine ih (c :: cur) ?_ w hw
      intro x hx
      rcases List.mem_cons.mp hx with hx | hx
      · subst hx
        cases hxc : isSpaceC x
        · rfl
        · exact absurd hxc hsp
      · exact hcur x hx

theorem cleanNameStr_idem (s : Str) : cleanNameStr (cleanNameStr s) = cleanNameStr s := by
  unfold cleanNameStr
  have hws : ∀ w ∈ wordsS s, w ≠ [] ∧ ∀ c ∈ w, isSpaceC c = false :=
    wordsAux_chars s [] (by simp)
  rw [titleS_join (wordsS s)]
  have hmap : ∀ w ∈ (wordsS s).map (titleS false),
      w ≠ [] ∧ ∀ c ∈ w, isSpaceC c = false := by
    intro w hw
    obtain ⟨u, hu, huw⟩ := List.mem_map.mp hw
    subst huw
    refine ⟨?_, titleS_noSpace (hws u hu).2 false⟩
    intro he
    apply (hws u hu).1
    have := titleS_length u false
    rw [he] at this
    exact List.eq_nil_of_length_eq_zero this.symm
  rw [wordsS_join _ hmap, titleS_join]
  rw [List.map_map]
  apply congrArg
  apply List.map_congr_left
  intro u hu
  exact titleS_idem u false

/-- Idempotence of `clean_product_name` on its nonempty outputs. -/
theorem cleanProductName_idem {f : JField Str} {n : Str}
    (h : cleanProductName f = n) (hne : n ≠ []) :
    cleanProductName (.val n) = n := by
  unfold cleanProductName at h ⊢
  dsimp only
  rw [if_neg hne]
  cases f with
  | val s =>
    dsimp only at h
    by_cases hs : s = []
    · rw [if_pos hs] at h
      subst h
      decide
    · rw [if_neg hs] at h
      subst h
      exact cleanNameStr_idem s
  | absent =>
    dsimp only at h
    subst h
    decide
  | null =>
    dsimp only at h
    subst h
    decide

/-! ### C8: strip and lower-casing lemmas -/

theorem dropWhile_idem (p : Nat → Bool) (m : Str) :
    (m.dropWhile p).dropWhile p = m.dropWhile p := by
  cases hm : m.dropWhile p with
  | nil => rfl
  | cons c t =>
    have hnp := List.head?_dropWhile_not p m
    rw [hm] at hnp
    simp only [List.head?_cons, Option.mem_some_iff] at hnp
    rw [List.dropWhile_cons_of_neg (by rw [hnp]; exact Bool.false_ne_true)]

theorem getLast?_dropWhile (p : Nat → Bool) (m : Str)
    (h : m.dropWhile p ≠ []) : (m.dropWhile p).getLast? = m.getLast? := by
  induction m with
  | nil => rfl
  | cons c t ih =>
    by_cases hc : p c = true
    · rw [List.dropWhile_cons_of_pos hc] at h ⊢
      have htne : t ≠ [] := by
        intro he
        rw [he] at h
        exact h rfl
      rw [ih h]
      obtain ⟨x, t', rfl⟩ : ∃ x t', t = x :: t' := by
        cases t with
        | nil => exact absurd rfl htne
        | cons x t' => exact ⟨x, t', rfl⟩
      rw [List.getLast?_cons_cons]
    · rw [List.dropWhile_cons_of_neg (by simpa using hc)]

theorem stripS_idem (l : Str) : stripS (stripS l) = stripS l := by
  unfold stripS
  have h1 : ((((l.dropWhile isSpaceC).reverse.dropWhile isSpaceC).reverse).dropWhile
      isSpaceC) = ((l.dropWhile isSpaceC).reverse.dropWhile isSpaceC).reverse := by
    cases hBr : ((l.dropWhile isSpaceC).reverse.dropWhile isSpaceC).reverse with
    | nil => rfl
    | cons c t =>
      have hBne : (l.dropWhile isSpaceC).reverse.dropWhile isSpaceC ≠ [] := by
        intro he
        rw [he] at hBr
        cases hBr
      have hc : ((l.dropWhile isSpaceC).reverse.dropWhile isSpaceC).getLast? =
          some c := by
        rw [← List.head?_reverse, hBr]
        rfl
      rw [getLast?_dropWhile _ _ hBne, List.getLast?_reverse] at hc
      have hnp := List.head?_dropWhile_not isSpaceC l
      rw [hc] at hnp
      simp only [Option.mem_some_iff] at hnp
      rw [List.dropWhile_cons_of_neg (by rw [hnp]; exact Bool.false_ne_true)]
  rw [h1, List.reverse_reverse, dropWhile_idem]

theorem lowerS_dropWhile (l : Str) :
    (lowerS l).dropWhile isSpaceC = lowerS (l.dropWhile isSpaceC) := by
  unfold lowerS
  rw [List.dropWhile_map]
  have hfe : (isSpaceC ∘ toLowerC) = isSpaceC := funext isSpaceC_toLowerC
  rw [hfe]

theorem lowerS_reverse (l : Str) : lowerS l.reverse = (lowerS l).reverse := by
  unfold lowerS
  exact List.map_reverse toLowerC l

theorem lowerS_stripS (l : Str) : stripS (lowerS l) = lowerS (stripS l) := by
  unfold stripS
  rw [lowerS_dropWhile, ← lowerS_reverse, lowerS_dropWhile, ← lowerS_reverse]

theorem lowerS_idem (l : Str) : lowerS (lowerS l) = lowerS l := by
  unfold lowerS
  rw [List.map_map]
  exact List.map_congr_left (fun c _ => toLowerC_toLowerC c)

/-- Idempotence of `standardize_category` on its nonempty outputs. -/
theorem standardizeCategory_idem {f : JField Str} {c : Str}
    (h : standardizeCategory f = c) (hne : c ≠ []) :
    standardizeCategory (.val c) = c := by
  unfold standardizeCategory at h ⊢
  dsimp only
  rw [if_neg hne]
  cases f with
  | val s =>
    dsimp only at h
    by_cases hs : s = []
    · rw [if_pos hs] at h
      subst h
      decide
    · rw [if_neg hs] at h
      subst h
      rw [lowerS_stripS (stripS (lowerS s)), stripS_idem, ← lowerS_stripS, lowerS_idem]
  | absent =>
    dsimp only at h
    subst h
    decide
  | null =>
    dsimp only at h
    subst h
    decide

/-! ### C8: idempotence of the per-day cleaner -/

/-- Full output characterization of the validator on a kept record: the
original price is the rounding of a positive raw price, and the sale price
and discount have the exact recomputed shapes. -/
theorem validate_ok_shape {p c : Rec} (h : validateAndCleanPrices p = .ok (c, true)) :
    ∃ o : ℚ, p.original_price = .val o ∧ 0 < o ∧
      c.original_price = .val (round2 o) ∧
      ((c.sale_price = .null ∧ c.discount_percentage = .val 0) ∨
       (∃ t : ℚ, c.sale_price = .val t ∧ round2 t = t ∧ t ≤ round2 o ∧
          c.discount_percentage =
            .val (if t ≠ 0 ∧ t < round2 o then round1 ((1 - t / round2 o) * 100)
                  else 0))) := by
  cases hop : p.original_price <;> simp only [validateAndCleanPrices, hop] at h
  · injection h with h
    injection h with h1 h2
    exact Bool.noConfusion h2
  · injection h with h
    injection h with h1 h2
    exact Bool.noConfusion h2
  · rename_i o
    by_cases ho : o ≤ 0
    · rw [if_pos ho] at h
      injection h with h
      injection h with h1 h2
      exact Bool.noConfusion h2
    · rw [if_neg ho] at h
      push_neg at ho
      refine ⟨o, rfl, ho, ?_⟩
      cases hsp : p.sale_price <;> rw [hsp] at h <;> dsimp only at h
      · exact Except.noConfusion h
      · injection h with h
        injection h with h1 h2
        subst h1
        exact ⟨rfl, Or.inl ⟨rfl, rfl⟩⟩
      · rename_i s
        by_cases hcl : round2 o < round2 s
        · rw [if_pos hcl] at h
          dsimp only at h
          rw [if_neg (by simp)] at h
          injection h with h
          injection h with h1 h2
          subst h1
          refine ⟨rfl, Or.inr ⟨round2 o, rfl, round2_idem o, le_refl _, ?_⟩⟩
          rw [if_neg (by simp)]
        · rw [if_neg hcl] at h
          push_neg at hcl
          dsimp only at h
          by_cases hcond : round2 s ≠ 0 ∧ round2 s < round2 o
          · rw [if_pos hcond] at h
            by_cases hz : round2 o = 0
            · rw [if_pos hz] at h
              exact Except.noConfusion h
            · rw [if_neg hz] at h
              injection h with h
              injection h with h1 h2
              subst h1
              refine ⟨rfl, Or.inr ⟨round2 s, rfl, round2_idem s, hcl, ?_⟩⟩
              rw [if_pos hcond]
          · rw [if_neg hcond] at h
            injection h with h
            injection h with h1 h2
            subst h1
            refine ⟨rfl, Or.inr ⟨round2 s, rfl, round2_idem s, hcl, ?_⟩⟩
            rw [if_neg hcond]

/-- A record already in fully validated shape passes the validator unchanged
with the valid flag set. -/
theorem validate_fixedpoint {x : Rec} {o : ℚ}
    (ho : x.original_price = .val o) (hpos : 0 < o) (hfix : round2 o = o)
    (hsale : x.sale_price = .null ∨
      ∃ s, x.sale_price = .val s ∧ round2 s = s ∧ s ≤ o)
    (hdN : x.sale_price = .null → x.discount_percentage = .val 0)
    (hdV : ∀ s, x.sale_price = .val s →
      x.discount_percentage =
        .val (if s ≠ 0 ∧ s < o then round1 ((1 - s / o) * 100) else 0)) :
    validateAndCleanPrices x = .ok (x, true) := by
  simp only [validateAndCleanPrices, ho]
  rw [if_neg (not_le.mpr hpos)]
  rw [hfix]
  rcases hsale with hn | ⟨s, hs, hsfix, hsle⟩
  · rw [hn]
    have hd := hdN hn
    have hx : ({x with original_price := .val o, sale_price := JField.null,
                       discount_percentage := .val 0} : Rec) = x := by
      apply Rec.ext <;> first | rfl | exact ho.symm | exact hn.symm | exact hd.symm
    exact congrArg (fun r => (Except.ok (r, true) : Except PyError (Rec × Bool))) hx
  · rw [hs]
    dsimp only
    rw [hsfix]
    rw [if_neg (not_lt.mpr hsle)]
    dsimp only
    have hd := hdV s hs
    by_cases hcond : s ≠ 0 ∧ s < o
    · rw [if_pos hcond] at hd
      rw [if_pos hcond, if_neg (ne_of_gt hpos)]
      have hx : ({x with original_price := .val o, sale_price := .val s,
                         discount_percentage :=
                           .val (round1 ((1 - s / o) * 100))} : Rec) = x := by
        apply Rec.ext <;> first | rfl | exact ho.symm | exact hs.symm | exact hd.symm
      exact congrArg (fun r => (Except.ok (r, true) : Except PyError (Rec × Bool))) hx
    · rw [if_neg hcond] at hd
      rw [if_neg hcond]
      have hx : ({x with original_price := .val o, sale_price := .val s,
                         discount_percentage := .val 0} : Rec) = x := by
        apply Rec.ext <;> first | rfl | exact ho.symm | exact hs.symm | exact hd.symm
      exact congrArg (fun r => (Except.ok (r, true) : Except PyError (Rec × Bool))) hx

/-- The enrichment step is idempotent on its outputs. -/
theorem addDerived_idem {p r : Rec} (h : addDerivedFeatures p = .ok r) :
    addDerivedFeatures r = .ok r := by
  unfold addDerivedFeatures at h ⊢
  cases hop : p.original_price <;> rw [hop] at h <;>
    cases hd : p.discount_percentage <;> rw [hd] at h <;>
    cases hc : p.colors <;> rw [hc] at h <;>
    simp only [Except.bind, bind, pure] at h <;>
    first
    | exact Except.noConfusion h
    | (injection h with h
       subst h
       simp only [Except.bind, bind, pure])

/-- The per-record cleaning step keeps the sku unchanged. -/
theorem processRecord_sku {p r : Rec} (h : processRecord p = .ok (some r)) :
    r.sku = p.sku := by
  obtain ⟨p2, hv, ha⟩ := processRecord_some_inv h
  rw [(addDerived_preserves ha).1, (validate_preserves hv).1]

/-- Every record surviving deduplication has a present sku key. -/
theorem removeDupAux_sku_present {seen : List (JField Str)} {ps out : List Rec}
    (h : removeDupAux seen ps = .ok out) : ∀ q ∈ out, q.sku ≠ .absent := by
  induction ps generalizing seen out with
  | nil =>
    unfold removeDupAux at h
    injection h with h
    subst h
    intro q hq
    cases hq
  | cons p ps ih =>
    unfold removeDupAux at h
    split at h
    · exact Except.noConfusion h
    · rename_i hpa
      split at h
      · exact ih h
      · cases hrest : removeDupAux (p.sku :: seen) ps with
        | error e =>
          rw [hrest] at h
          exact Except.noConfusion h
        | ok rest =>
          rw [hrest] at h
          simp only [Except.bind, bind, pure] at h
          injection h with h
          subst h
          intro q hq
          rcases List.mem_cons.mp hq with hq | hq
          · subst hq
            exact hpa
          · exact ih hrest q hq

/-- Deduplication is the identity on a list of records with pairwise
distinct, present skus none of which was already seen. -/
theorem removeDupAux_fixed (out : List Rec) :
    ∀ seen : List (JField Str), (out.map (fun r => r.sku)).Nodup →
      (∀ q ∈ out, q.sku ≠ .absent ∧ q.sku ∉ seen) →
      removeDupAux seen out = .ok out := by
  induction out with
  | nil =>
    intro seen _ _
    rfl
  | cons q out ih =>
    intro seen hnd hq
    rw [List.map_cons, List.nodup_cons] at hnd
    obtain ⟨hqs, hnd⟩ := hnd
    obtain ⟨hqa, hqseen⟩ := hq q (List.mem_cons_self _ _)
    have hrec : removeDupAux (q.sku :: seen) out = .ok out := by
      refine ih (q.sku :: seen) hnd ?_
      intro r hr
      refine ⟨(hq r (List.mem_cons_of_mem _ hr)).1, ?_⟩
      intro hmem
      rcases List.mem_cons.mp hmem with hmem | hmem
      · exact hqs (List.mem_map.mpr ⟨r, hr, hmem⟩)
      · exact (hq r (List.mem_cons_of_mem _ hr)).2 hmem
    unfold removeDupAux
    rw [if_neg hqa, if_neg hqseen, hrec]
    simp only [Except.bind, bind, pure, Except.pure]

/-- The post-dedup cleaning loop maps the kept records' skus to a sublist of
the input skus. -/
theorem cleanAux_sku_sublist {ps out : List Rec} {k : Nat}
    (h : cleanAux ps = .ok (out, k)) :
    (out.map (fun r => r.sku)).Sublist (ps.map (fun r => r.sku)) := by
  induction ps generalizing out k with
  | nil =>
    unfold cleanAux at h
    injection h with h
    injection h with h1 h2
    subst h1
    exact List.Sublist.refl _
  | cons p ps ih =>
    unfold cleanAux at h
    cases hp : processRecord p with
    | error e =>
      rw [hp] at h
      exact Except.noConfusion h
    | ok res =>
      rw [hp] at h
      cases hrest : cleanAux ps with
      | error e =>
        rw [hrest] at h
        simp only [Except.bind, bind, pure] at h
        exact Except.noConfusion h
      | ok restk =>
        obtain ⟨rest, k'⟩ := restk
        rw [hrest] at h
        simp only [Except.bind, bind, pure] at h
        cases res with
        | none =>
          injection h with h
          injection h with h1 h2
          subst h1
          simp only [List.map_cons]
          exact List.Sublist.cons _ (ih hrest)
        | some c =>
          injection h with h
          injection h with h1 h2
          subst h1
          simp only [List.map_cons]
          rw [processRecord_sku hp]
          exact List.Sublist.cons₂ _ (ih hrest)

/-- The cleaning loop is the identity, with zero invalid records, on a list
of records each of which cleans to itself. -/
theorem cleanAux_fixed : ∀ out : List Rec,
    (∀ r ∈ out, processRecord r = .ok (some r)) →
    cleanAux out = .ok (out, 0) := by
  intro out
  induction out with
  | nil =>
    intro _
    rfl
  | cons r out ih =>
    intro hfix
    unfold cleanAux
    rw [hfix r (List.mem_cons_self _ _),
        ih (fun q hq => hfix q (List.mem_cons_of_mem _ hq))]
    simp only [Except.bind, bind, pure, Except.pure]

/-- A record kept by the per-record cleaning step cleans to itself on a
second pass, provided its cleaned name and category are nonempty and its
rounded original price is still positive. -/
theorem processRecord_idem {p r : Rec} (h : processRecord p = .ok (some r))
    (hname : r.name ≠ .val ([] : Str)) (hcat : r.category ≠ .val ([] : Str))
    (hpos : ∀ o : ℚ, r.original_price = .val o → 0 < o) :
    processRecord r = .ok (some r) := by
  obtain ⟨p2, hv, ha⟩ := processRecord_some_inv h
  obtain ⟨hsku2, hnm2, hct2, hop2, hsp2, hdp2, hco2, his2⟩ := addDerived_preserves ha
  obtain ⟨hsku1, hnm1, hct1, hco1, his1, _, _, _, _⟩ := validate_preserves hv
  have hrname : r.name = .val (cleanProductName p.name) := by
    rw [hnm2, hnm1]
  have hrcat : r.category = .val (standardizeCategory p.category) := by
    rw [hct2, hct1]
  have hnne : cleanProductName p.name ≠ [] := by
    intro he
    exact hname (by rw [hrname, he])
  have hcne : standardizeCategory p.category ≠ [] := by
    intro he
    exact hcat (by rw [hrcat, he])
  have hnfix : JField.val (cleanProductName r.name) = r.name := by
    rw [hrname, cleanProductName_idem rfl hnne]
  have hcfix : JField.val (standardizeCategory r.category) = r.category := by
    rw [hrcat, standardizeCategory_idem rfl hcne]
  have hp1 : ({r with name := .val (cleanProductName r.name),
                      category := .val (standardizeCategory r.category)} : Rec) = r := by
    apply Rec.ext <;> first | rfl | exact hnfix | exact hcfix
  obtain ⟨o, hpo, hopos, hc2op, hdisj⟩ := validate_ok_shape hv
  have hrop : r.original_price = .val (round2 o) := by
    rw [hop2, hc2op]
  have hvr : validateAndCleanPrices r = .ok (r, true) := by
    rcases hdisj with ⟨hnull, hd0⟩ | ⟨t, hst, htfix, htle, hdeq⟩
    · refine validate_fixedpoint hrop (hpos _ hrop) (round2_idem o)
        (Or.inl (by rw [hsp2, hnull])) (fun _ => by rw [hdp2, hd0]) ?_
      intro s hs
      rw [hsp2, hnull] at hs
      exact JField.noConfusion hs
    · refine validate_fixedpoint hrop (hpos _ hrop) (round2_idem o)
        (Or.inr ⟨t, by rw [hsp2, hst], htfix, htle⟩) ?_ ?_
      · intro hnull
        rw [hsp2, hst] at hnull
        exact JField.noConfusion hnull
      · intro s hs
        rw [hsp2, hst] at hs
        injection hs with hs
        subst hs
        rw [hdp2, hdeq]
  have har : addDerivedFeatures r = .ok r := addDerived_idem ha
  unfold processRecord
  dsimp only
  rw [hp1, hvr]
  simp only [Except.bind, bind, pure]
  rw [if_pos trivial, har]
  rfl

/-- A cleaned record fit for re-cleaning: nonempty name and category and a
positive (rounded) original price. -/
def goodOut (r : Rec) : Bool :=
  decide (r.name ≠ JField.val ([] : Str)) &&
  decide (r.category ≠ JField.val ([] : Str)) &&
  (match r.original_price with
   | .val o => decide (0 < o)
   | _ => true)

/-- C8 (amended): per-day cleaning is idempotent on any of its outputs whose
records all have a nonempty cleaned name, a nonempty cleaned category and a
positive rounded original price: re-cleaning such an output returns it
unchanged, with zero duplicates and zero invalid records dropped.  Without
these provisos idempotence fails (see the counterexample: a whitespace-only
name cleans to the empty string and is renamed on the second pass, and a
positive price that rounds to 0.00 survives the first pass but is dropped on
the second). -/
theorem c8_cleaning_idempotent (ps out : List Rec) (k : Nat)
    (h : cleanDailyData ps = .ok (out, k))
    (hgood : ∀ r ∈ out, goodOut r = true) :
    cleanDailyData out = .ok (out, 0) := by
  unfold cleanDailyData at h
  cases hq : removeDuplicates ps with
  | error e =>
    rw [hq] at h
    exact Except.noConfusion h
  | ok qs =>
    rw [hq] at h
    simp only [Except.bind, bind, pure] at h
    have hfix : ∀ r ∈ out, processRecord r = .ok (some r) := by
      intro r hr
      obtain ⟨p, hp, hpr⟩ := cleanAux_mem h r hr
      have hg := hgood r hr
      simp only [goodOut, Bool.and_eq_true, decide_eq_true_eq] at hg
      refine processRecord_idem hpr hg.1.1 hg.1.2 ?_
      intro o ho
      have hm := hg.2
      rw [ho] at hm
      exact of_decide_eq_true hm
    have hnd : ((qs.map fun r => r.sku).Nodup) := (removeDupAux_skus hq).2
    have hndout : ((out.map fun r => r.sku).Nodup) :=
      hnd.sublist (cleanAux_sku_sublist h)
    have hdd : removeDupAux [] out = .ok out := by
      refine removeDupAux_fixed out [] hndout ?_
      intro r hr
      obtain ⟨p, hp, hpr⟩ := cleanAux_mem h r hr
      refine ⟨?_, List.not_mem_nil _⟩
      rw [processRecord_sku hpr]
      exact removeDupAux_sku_present hq p hp
    unfold cleanDailyData removeDuplicates
    rw [hdd]
    simp only [Except.bind, bind, pure]
    exact cleanAux_fixed out hfix

def c8pA : Rec := {sku := .val [97], name := .val [32], category := .val [98],
                   original_price := .val 10, sale_price := .null}

def c8pB : Rec := {sku := .val [98], original_price := .val (1/250),
                   sale_price := .null}

def c8rA : Rec := {sku := .val [97], name := .val [], category := .val [98],
                   original_price := .val 10, sale_price := .null,
                   discount_percentage := .val 0, price_tier := .val "budget",
                   discount_tier := .val "none", num_colors := .val 0,
                   savings_amount := .val 0}

def c8rB : Rec := {sku := .val [98], name := .val unknownProduct,
                   category := .val uncategorized, original_price := .val 0,
                   sale_price := .null, discount_percentage := .val 0,
                   price_tier := .val "unknown", discount_tier := .val "none",
                   num_colors := .val 0, savings_amount := .val 0}

/-- C8 counterexample to unconditional idempotence: cleaning the two-record
list once keeps both records (one with an empty cleaned name from a
whitespace-only raw name, one whose positive raw price 0.004 rounds to 0.00);
cleaning that output again renames the first record to "Unknown Product" and
drops the second as invalid, so the second pass is not the identity. -/
theorem c8_counterexample :
    cleanDailyData [c8pA, c8pB] = .ok ([c8rA, c8rB], 0) ∧
    cleanDailyData [c8rA, c8rB] =
      .ok ([{c8rA with name := .val unknownProduct}], 1) := by
  constructor
  · with_unfolding_all decide
  · with_unfolding_all decide

def c8wp : Rec := {sku := .val [97], name := .val [104, 105],
                   category := .val [99], original_price := .val 80,
                   sale_price := .val 60}

def c8wr : Rec := {sku := .val [97], name := .val [72, 105],
                   category := .val [99], original_price := .val 80,
                   sale_price := .val 60, discount_percentage := .val 25,
                   price_tier := .val "mid-range", discount_tier := .val "medium",
                   num_colors := .val 0, savings_amount := .val 20}

/-- Concrete instance of the amended idempotence theorem: re-cleaning the
cleaned singleton list returns it unchanged. -/
theorem c8_witness : cleanDailyData [c8wr] = .ok ([c8wr], 0) :=
  c8_cleaning_idempotent [c8wp] [c8wr] 0 (by with_unfolding_all decide)
    (by with_unfolding_all decide)


end Aritzia
